import Mathlib

/-!
Verification of the text-buffer core and line wrapper of the gvcode editor
library.

The development shallowly embeds the relevant Go sources:

* `textBuffer` with its `append` and `ReadRuneAt` operations (the backing
  store of the piece table), together with a faithful model of Go's
  `unicode/utf8` decoding;
* the marker relocation rule and the piece-table undo/redo discipline
  (whose implementation files are not part of the source snapshot; they are
  modelled from the specification, as marked on each definition);
* the line wrapper of `editor/wrapping.go`: `breaker`, `glyphReader`,
  `readToNextBreak`, `expandTabGlyph`, `wrapNextLine` and `WrapParagraph`.

Bytes are modelled as `Nat` (values < 256), runes as `Nat` scalar values,
and the 26.6 fixed-point quantities of the wrapper as `Int` with Go's
truncated division (`Int.tdiv`).
-/

/- ===================================================================
   Go `unicode/utf8` decoding, used by the text buffer.
   `utf8DecodeRune` mirrors `utf8.DecodeRune`: ASCII fast path, the
   `first` table's classification of the leading byte, the accept
   ranges for the second byte (excluding overlong encodings and
   surrogates), and the `(RuneError, 1)` result on any invalid or
   truncated encoding.  `utf8RuneCount` mirrors `utf8.RuneCount`,
   which steps through the bytes by the decoded width.
   =================================================================== -/

/-- Go `utf8.RuneError` (U+FFFD). -/
def runeError : Nat := 0xFFFD

/-- Mirror of Go `utf8.DecodeRune` on a byte list: returns the decoded
scalar value and its byte width; invalid or truncated input yields
`(runeError, 1)` and empty input yields `(runeError, 0)`. -/
def utf8DecodeRune (p : List Nat) : Nat × Nat :=
  match p with
  | [] => (runeError, 0)
  | b0 :: rest =>
    if b0 < 0x80 then (b0, 1)
    else if b0 < 0xC2 then (runeError, 1)
    else if b0 < 0xE0 then
      match rest with
      | b1 :: _ =>
        if 0x80 ≤ b1 ∧ b1 ≤ 0xBF then ((b0 % 0x20) * 0x40 + b1 % 0x40, 2)
        else (runeError, 1)
      | [] => (runeError, 1)
    else if b0 < 0xF0 then
      match rest with
      | b1 :: b2 :: _ =>
        if ((if b0 = 0xE0 then 0xA0 else 0x80) ≤ b1 ∧
              b1 ≤ (if b0 = 0xED then 0x9F else 0xBF)) ∧
            (0x80 ≤ b2 ∧ b2 ≤ 0xBF) then
          ((b0 % 0x10) * 0x1000 + (b1 % 0x40) * 0x40 + b2 % 0x40, 3)
        else (runeError, 1)
      | _ => (runeError, 1)
    else if b0 < 0xF5 then
      match rest with
      | b1 :: b2 :: b3 :: _ =>
        if ((if b0 = 0xF0 then 0x90 else 0x80) ≤ b1 ∧
              b1 ≤ (if b0 = 0xF4 then 0x8F else 0xBF)) ∧
            (0x80 ≤ b2 ∧ b2 ≤ 0xBF) ∧ (0x80 ≤ b3 ∧ b3 ≤ 0xBF) then
          ((b0 % 8) * 0x40000 + (b1 % 0x40) * 0x1000 + (b2 % 0x40) * 0x40 + b3 % 0x40, 4)
        else (runeError, 1)
      | _ => (runeError, 1)
    else (runeError, 1)

theorem utf8DecodeRune_snd_pos (b0 : Nat) (rest : List Nat) :
    0 < (utf8DecodeRune (b0 :: rest)).2 := by
  unfold utf8DecodeRune
  repeat' split
  all_goals simp_all

/-- Mirror of Go `utf8.RuneCount`: the number of runes obtained by
repeatedly decoding from the front of the byte list. -/
def utf8RuneCount (l : List Nat) : Nat :=
  match l with
  | [] => 0
  | b :: rest => 1 + utf8RuneCount ((b :: rest).drop (utf8DecodeRune (b :: rest)).2)
termination_by l.length
decreasing_by
  simp only [List.length_drop, List.length_cons]
  exact Nat.sub_lt (Nat.succ_pos _) (utf8DecodeRune_snd_pos _ rest)

/- ===================================================================
   `textBuffer` (internal/buffer): an append-only byte buffer with a
   cached rune length.  The capacity bookkeeping of `ensure` is kept
   explicit; Go's `copy` into the regrown backing array preserves the
   stored bytes, so in this model `ensure` only changes the capacity.
   =================================================================== -/

/-- Chunk size used to grow the buffer (source constant `chunkSize`). -/
def chunkSize : Nat := 4096

/-- The `textBuffer` of internal/buffer: byte content, backing-array
capacity, and the cached length in runes. -/
structure textBuffer where
  buf : List Nat
  cap : Nat
  length : Nat
deriving DecidableEq

/-- `textBuffer.ensure` grows the capacity to the next multiple of
`chunkSize` when fewer than `n` free bytes remain; the byte content and
rune length are untouched (Go copies the old bytes into the new array). -/
def textBuffer.ensure (tb : textBuffer) (n : Nat) : textBuffer :=
  if n ≤ tb.cap - tb.buf.length then tb
  else
    let needed := tb.buf.length + n
    let newCap := ((needed + chunkSize - 1) / chunkSize) * chunkSize
    { tb with cap := newCap }

/-- `textBuffer.append` appends `buf` at the tail and returns the rune
offset and byte offset at which it was placed together with its rune
count, exactly as the Go method does. -/
def textBuffer.append (tb : textBuffer) (buf : List Nat) :
    Nat × Nat × Nat × textBuffer :=
  let tb1 := tb.ensure buf.length
  let byteOff := tb1.buf.length
  let runeOff := tb1.length
  let tb2 := { tb1 with buf := tb1.buf ++ buf }
  let runeLen := utf8RuneCount buf
  (runeOff, byteOff, runeLen, { tb2 with length := tb2.length + runeLen })

/-- Result of `textBuffer.ReadRuneAt`: the Go method returns
`(0, 0, io.EOF)` past the end, `(c, size, nil)` in range, and panics on a
negative offset (the slice expression `tb.buf[byteOff:]` is out of range). -/
inductive readRuneResult where
  | eof : readRuneResult
  | ok (c : Nat) (size : Nat) : readRuneResult
  | panicked : readRuneResult
deriving DecidableEq

/-- `textBuffer.ReadRuneAt` from internal/buffer: end-of-input sentinel
at or beyond the byte length, otherwise a UTF-8 decode at the offset. -/
def textBuffer.ReadRuneAt (tb : textBuffer) (byteOff : Int) : readRuneResult :=
  if (tb.buf.length : Int) ≤ byteOff then .eof
  else if byteOff < 0 then .panicked
  else
    let d := utf8DecodeRune (tb.buf.drop byteOff.toNat)
    .ok d.1 d.2

/- ===================================================================
   Claims C6 and C8.
   =================================================================== -/

theorem textBuffer_ensure_buf (tb : textBuffer) (n : Nat) :
    (tb.ensure n).buf = tb.buf ∧ (tb.ensure n).length = tb.length := by
  unfold textBuffer.ensure
  split <;> exact ⟨rfl, rfl⟩

/-- C6: `append(buf)` returns the store's rune length and byte length from
immediately before the call together with the UTF-8 rune count of `buf`;
afterwards the previously stored bytes are unchanged as an initial
segment, `buf` follows them, and the rune length has grown by exactly
that rune count — prior bytes are never shrunk or rewritten. -/
theorem c6_textBuffer_append_appends (tb : textBuffer) (input : List Nat) :
    (tb.append input).1 = tb.length ∧
    (tb.append input).2.1 = tb.buf.length ∧
    (tb.append input).2.2.1 = utf8RuneCount input ∧
    (tb.append input).2.2.2.buf = tb.buf ++ input ∧
    (tb.append input).2.2.2.length = tb.length + utf8RuneCount input ∧
    (tb.append input).2.2.2.buf.take tb.buf.length = tb.buf := by
  obtain ⟨hb, hl⟩ := textBuffer_ensure_buf tb input.length
  unfold textBuffer.append
  simp only [hb, hl, List.take_left]
  simp

/-- C8: `ReadRuneAt` returns the dedicated end-of-input sentinel exactly
when the byte offset is at or beyond the buffer's byte length, and for
every in-range offset it returns the rune decoded there together with its
byte width and no error, so a decode failure (`runeError` of width 1) is
distinguished from end-of-input. -/
theorem c8_readRuneAt_eof_iff (tb : textBuffer) (byteOff : Int) :
    (tb.ReadRuneAt byteOff = .eof ↔ (tb.buf.length : Int) ≤ byteOff) ∧
    (0 ≤ byteOff → byteOff < (tb.buf.length : Int) →
      tb.ReadRuneAt byteOff =
        .ok (utf8DecodeRune (tb.buf.drop byteOff.toNat)).1
          (utf8DecodeRune (tb.buf.drop byteOff.toNat)).2 ∧
      tb.ReadRuneAt byteOff ≠ .eof) := by
  unfold textBuffer.ReadRuneAt
  constructor
  · constructor
    · intro h
      by_contra hlt
      push_neg at hlt
      rw [if_neg (by omega)] at h
      split at h <;> simp_all
    · intro h
      rw [if_pos h]
  · intro h0 hlt
    rw [if_neg (by omega), if_neg (by omega)]
    simp

/-- Witness for C8 at a concrete buffer: one ASCII byte, offset 0 is in
range and decodes to it, offset 1 is end-of-input. -/
theorem c8_readRuneAt_eof_iff_witness :
    ((0 : Int) ≤ 0 ∧ (0 : Int) < (1 : Nat) ∧
      (textBuffer.mk [0x41] 4096 1).ReadRuneAt 0 = .ok 0x41 1) ∧
    (textBuffer.mk [0x41] 4096 1).ReadRuneAt 1 = .eof := by
  refine ⟨⟨by decide, by decide, ?_⟩, ?_⟩
  · have h := (c8_readRuneAt_eof_iff (textBuffer.mk [0x41] 4096 1) 0).2
      (by decide) (by norm_num)
    rw [h.1]
    rfl
  · exact ((c8_readRuneAt_eof_iff (textBuffer.mk [0x41] 4096 1) 1).1).2 (by norm_num)

/- ===================================================================
   Marker service (spec §4.F).  The marker implementation file is not
   part of the source snapshot (only its tests are), so the update rule
   is modelled from the specification and cross-checked against the
   expectations of TestMarkerOnInsert / TestMarkerOnErase.
   =================================================================== -/

/-- Marker bias (source type `MarkerBias`): `forward` follows text
inserted exactly at the marker, `backward` stays put. -/
inductive MarkerBias where
  | forward
  | backward
deriving DecidableEq

/-- Modelled from the spec: the §4.F marker-offset update rule for a
committed swap replacing the rune range `[s, e)` by `n` runes, applied
to a live marker at `offset` with bias `bias`.  The marker service
implementation is missing from the source snapshot; this follows the
specification's case split: below the range unchanged, above the range
shifted by `n - (e - s)`, inside the range collapsed to `s` and then
moved by `n` exactly for forward bias when the edit inserts text. -/
def markerOnSwap (s e n offset : Nat) (bias : MarkerBias) : Nat :=
  if offset < s then offset
  else if offset > e then offset + n - (e - s)
  else
    if 0 < n ∧ bias = .forward then s + n else s

/-- C2: for a pure insertion of `n ≥ 1` runes at rune position `s`, a
marker strictly before `s` keeps its offset, a marker strictly after `s`
moves by `n`, and a marker exactly at `s` moves by `n` precisely when its
bias is forward and stays at `s` when its bias is backward. -/
theorem c2_marker_insert (s n offset : Nat) (bias : MarkerBias) (hn : 0 < n) :
    (offset < s → markerOnSwap s s n offset bias = offset) ∧
    (offset > s → markerOnSwap s s n offset bias = offset + n) ∧
    (offset = s →
      ((markerOnSwap s s n offset bias = s + n ↔ bias = .forward) ∧
        (bias = .backward → markerOnSwap s s n offset bias = s))) := by
  unfold markerOnSwap
  refine ⟨fun h => by simp [h], fun h => ?_, fun h => ?_⟩
  · rw [if_neg (by omega), if_pos h]
    omega
  · subst h
    rw [if_neg (by omega), if_neg (by omega)]
    cases bias with
    | forward => simp [hn]
    | backward => simp; omega

/-- Witness for C2 at the boundary case of TestMarkerOnInsert: inserting
6 runes at 6 moves a forward marker at 6 to 12 and a backward one not at
all. -/
theorem c2_marker_insert_witness :
    0 < 6 ∧
    (markerOnSwap 6 6 6 6 MarkerBias.forward = 6 + 6 ↔ MarkerBias.forward = .forward) ∧
    (markerOnSwap 6 6 6 6 MarkerBias.backward = 6) :=
  ⟨by decide,
    ((c2_marker_insert 6 6 6 .forward (by decide)).2.2 rfl).1,
    ((c2_marker_insert 6 6 6 .backward (by decide)).2.2 rfl).2 rfl⟩

/-- C3: for a pure deletion of the rune range `[s, e)` (no inserted
runes), a marker beyond `e` shifts down by the deleted length, a marker
inside `[s, e]` collapses to `s`, and a marker before `s` is unchanged,
for either bias. -/
theorem c3_marker_erase (s e offset : Nat) (bias : MarkerBias) (hse : s ≤ e) :
    (e < offset → markerOnSwap s e 0 offset bias = offset - (e - s)) ∧
    (s ≤ offset → offset ≤ e → markerOnSwap s e 0 offset bias = s) ∧
    (offset < s → markerOnSwap s e 0 offset bias = offset) := by
  unfold markerOnSwap
  refine ⟨fun h => ?_, fun h1 h2 => ?_, fun h => by simp [h]⟩
  · rw [if_neg (by omega), if_pos (by omega)]
    omega
  · rw [if_neg (by omega), if_neg (by omega)]
    simp

/-- Witness for C3 at the last case of TestMarkerOnErase: erasing
`[5, 13)` moves a marker at 14 down by 8 to 6. -/
theorem c3_marker_erase_witness :
    5 ≤ 13 ∧ (13 < 14 → markerOnSwap 5 13 0 14 MarkerBias.backward = 14 - (13 - 5)) ∧
    markerOnSwap 5 13 0 14 MarkerBias.backward = 6 :=
  ⟨by decide, (c3_marker_erase 5 13 14 .backward (by decide)).1,
    by
      have h := (c3_marker_erase 5 13 14 .backward (by decide)).1 (by decide)
      rw [h]⟩

/- ===================================================================
   Piece table undo/redo (spec §4.C–§4.E).  The piece-table
   implementation files are not part of the source snapshot (only their
   tests are), so the facade is modelled from the specification at the
   level of observable document content: each committed edit records a
   swap of the clamped old text for the new text, pushed as one batch
   (outside grouping every public edit gets a fresh batch id), and undo
   and redo replay these records in LIFO order.  The spec's §4.C
   tie-breaks make an edit with an empty clamped range and empty text a
   no-op.
   =================================================================== -/

/-- A recorded swap at document-content level: the clamped start rune,
the replaced old text and the inserted new text.  Applying the record
backwards exactly undoes the edit (spec §3, "swap record"). -/
structure SwapRec where
  start : Nat
  oldText : List Char
  newText : List Char
deriving DecidableEq

/-- Modelled from the spec: the piece table observed at document-content
level, with the undo and redo stacks of swap batches.  The piece list,
backing stores and length counters of the real implementation are not in
the source snapshot; the content list stands for the logical document
(its runes), and one stack entry is one batch. -/
structure PieceTable where
  content : List Char
  undoStack : List SwapRec
  redoStack : List SwapRec
deriving DecidableEq

/-- A freshly constructed piece table: given initial text, empty undo and
redo stacks. -/
def NewPieceTable (init : List Char) : PieceTable := ⟨init, [], []⟩

/-- Modelled from the spec (§4.E): `Replace` clamps the end of the range
to `max start (min e length)` and the start to the length, swaps the old
text for the new text, pushes the swap as a fresh batch and discards the
redo stack; an edit whose clamped range is empty and whose text is empty
is a §4.C no-op. -/
def PieceTable.Replace (pt : PieceTable) (start e : Nat) (text : List Char) :
    PieceTable :=
  let len := pt.content.length
  let s1 := min start len
  let e1 := max s1 (min e len)
  if s1 = e1 ∧ text = [] then pt
  else
    { content := pt.content.take s1 ++ text ++ pt.content.drop e1,
      undoStack := ⟨s1, (pt.content.drop s1).take (e1 - s1), text⟩ :: pt.undoStack,
      redoStack := [] }

/-- `insert(at, text) ≡ replace(at, at, text)` (spec §4.E). -/
def PieceTable.Insert (pt : PieceTable) (at1 : Nat) (text : List Char) : PieceTable :=
  pt.Replace at1 at1 text

/-- `erase(start, end) ≡ replace(start, end, "")` (spec §4.E). -/
def PieceTable.Erase (pt : PieceTable) (s e : Nat) : PieceTable :=
  pt.Replace s e []

/-- Modelled from the spec (§4.D): `Undo` pops the top batch, applies the
inverse swap without recording a new one, pushes the batch onto the redo
stack, and reports `false` on an empty stack. -/
def PieceTable.Undo (pt : PieceTable) : PieceTable × Bool :=
  match pt.undoStack with
  | [] => (pt, false)
  | r :: rest =>
    (⟨pt.content.take r.start ++ r.oldText ++
        pt.content.drop (r.start + r.newText.length),
      rest, r :: pt.redoStack⟩, true)

/-- Modelled from the spec (§4.D): `Redo` is symmetric to `Undo`. -/
def PieceTable.Redo (pt : PieceTable) : PieceTable × Bool :=
  match pt.redoStack with
  | [] => (pt, false)
  | r :: rest =>
    (⟨pt.content.take r.start ++ r.newText ++
        pt.content.drop (r.start + r.oldText.length),
      r :: pt.undoStack, rest⟩, true)

/-- A public edit of the facade: insert, erase or replace. -/
inductive EditOp where
  | insert (at1 : Nat) (text : List Char)
  | erase (s e : Nat)
  | replace (s e : Nat) (text : List Char)
deriving DecidableEq

/-- The start rune of the range an edit addresses. -/
def opStart : EditOp → Nat
  | .insert a _ => a
  | .erase s _ => s
  | .replace s _ _ => s

/-- The end rune of the range an edit addresses. -/
def opEnd : EditOp → Nat
  | .insert a _ => a
  | .erase _ e => e
  | .replace _ e _ => e

/-- The text an edit inserts. -/
def opText : EditOp → List Char
  | .insert _ t => t
  | .erase _ _ => []
  | .replace _ _ t => t

/-- Applying one public edit. -/
def applyEdit (pt : PieceTable) (op : EditOp) : PieceTable :=
  pt.Replace (opStart op) (opEnd op) (opText op)

/-- Applying a sequence of public edits in order. -/
def applyEdits (pt : PieceTable) (ops : List EditOp) : PieceTable :=
  ops.foldl applyEdit pt

/-- `n` successive calls of `Undo`. -/
def undoSteps (pt : PieceTable) (n : Nat) : PieceTable :=
  (fun p => p.Undo.1)^[n] pt

/-- `n` successive calls of `Redo`. -/
def redoSteps (pt : PieceTable) (n : Nat) : PieceTable :=
  (fun p => p.Redo.1)^[n] pt

/-- The swap record an edit produces on the given table. -/
def recOf (pt : PieceTable) (op : EditOp) : SwapRec :=
  let len := pt.content.length
  let s1 := min (opStart op) len
  let e1 := max s1 (min (opEnd op) len)
  ⟨s1, (pt.content.drop s1).take (e1 - s1), opText op⟩

/-- An edit is effective when it is not one of the spec's §4.C no-ops:
after clamping it either removes a nonempty range or inserts nonempty
text. -/
def isEffective (pt : PieceTable) (op : EditOp) : Bool :=
  let len := pt.content.length
  let s1 := min (opStart op) len
  let e1 := max s1 (min (opEnd op) len)
  decide (¬(s1 = e1 ∧ opText op = []))

/-- Every edit of the sequence is effective at its point of application. -/
def EffectiveSeq : PieceTable → List EditOp → Bool
  | _, [] => true
  | pt, op :: rest => isEffective pt op && EffectiveSeq (applyEdit pt op) rest

/-- The swap records a sequence of edits produces, in application order. -/
def recsOf : PieceTable → List EditOp → List SwapRec
  | _, [] => []
  | pt, op :: rest => recOf pt op :: recsOf (applyEdit pt op) rest

theorem undoSteps_zero (pt : PieceTable) : undoSteps pt 0 = pt := rfl

theorem undoSteps_succ (pt : PieceTable) (n : Nat) :
    undoSteps pt (n + 1) = (undoSteps pt n).Undo.1 := by
  unfold undoSteps
  exact Function.iterate_succ_apply' (fun p => p.Undo.1) n pt

theorem redoSteps_succ (pt : PieceTable) (n : Nat) :
    redoSteps pt (n + 1) = redoSteps pt.Redo.1 n := by
  unfold redoSteps
  exact Function.iterate_succ_apply (fun p => p.Redo.1) n pt

theorem undo_replace_content (c text : List Char) (s1 e1 : Nat)
    (hs : s1 ≤ e1) (he : e1 ≤ c.length) :
    (c.take s1 ++ text ++ c.drop e1).take s1 ++ (c.drop s1).take (e1 - s1) ++
      (c.take s1 ++ text ++ c.drop e1).drop (s1 + text.length) = c := by
  have hlen : (c.take s1).length = s1 := by
    rw [List.length_take]
    omega
  have h1 : (c.take s1 ++ text ++ c.drop e1).take s1 = c.take s1 := by
    rw [List.append_assoc]
    exact List.take_left' hlen
  have h2 : (c.take s1 ++ text ++ c.drop e1).drop (s1 + text.length) = c.drop e1 := by
    have hl2 : (c.take s1 ++ text).length = s1 + text.length := by
      rw [List.length_append, hlen]
    exact List.drop_left' hl2
  rw [h1, h2]
  have h3 : c.take s1 ++ (c.drop s1).take (e1 - s1) = c.take e1 := by
    rw [← List.take_add]
    congr 1
    omega
  rw [h3, List.take_append_drop]

theorem redo_replace_content (c text : List Char) (s1 e1 : Nat)
    (hs : s1 ≤ e1) (he : e1 ≤ c.length) :
    c.take s1 ++ text ++ c.drop (s1 + ((c.drop s1).take (e1 - s1)).length) =
      c.take s1 ++ text ++ c.drop e1 := by
  have h : s1 + ((c.drop s1).take (e1 - s1)).length = e1 := by
    rw [List.length_take, List.length_drop]
    omega
  rw [h]

theorem replace_effective_spec (pt : PieceTable) (op : EditOp)
    (h : isEffective pt op = true) :
    (applyEdit pt op).undoStack = recOf pt op :: pt.undoStack ∧
    (applyEdit pt op).redoStack = [] ∧
    (∀ us rs, (PieceTable.Undo ⟨(applyEdit pt op).content, recOf pt op :: us, rs⟩).1 =
      ⟨pt.content, us, recOf pt op :: rs⟩) ∧
    (∀ us rs, (PieceTable.Redo ⟨pt.content, us, recOf pt op :: rs⟩).1 =
      ⟨(applyEdit pt op).content, recOf pt op :: us, rs⟩) := by
  unfold isEffective at h
  rw [decide_eq_true_iff] at h
  unfold applyEdit PieceTable.Replace recOf
  rw [if_neg h]
  set len := pt.content.length with hlen
  set s1 := min (opStart op) len with hs1
  set e1 := max s1 (min (opEnd op) len) with he1
  have hb1 : s1 ≤ e1 := le_max_left _ _
  have hb2 : e1 ≤ len := by
    apply max_le
    · exact min_le_right _ _
    · exact min_le_right _ _
  refine ⟨rfl, rfl, fun us rs => ?_, fun us rs => ?_⟩
  · unfold PieceTable.Undo
    simp only []
    congr 1
    exact undo_replace_content pt.content (opText op) s1 e1 hb1 hb2
  · unfold PieceTable.Redo
    simp only []
    congr 1
    exact redo_replace_content pt.content (opText op) s1 e1 hb1 hb2

theorem applyEdits_nil (pt : PieceTable) : applyEdits pt [] = pt := rfl

theorem applyEdits_cons (pt : PieceTable) (op : EditOp) (rest : List EditOp) :
    applyEdits pt (op :: rest) = applyEdits (applyEdit pt op) rest := rfl

theorem applyEdits_append (pt : PieceTable) (A B : List EditOp) :
    applyEdits pt (A ++ B) = applyEdits (applyEdits pt A) B :=
  List.foldl_append applyEdit pt A B

theorem effectiveSeq_cons (pt : PieceTable) (op : EditOp) (rest : List EditOp) :
    EffectiveSeq pt (op :: rest) = true ↔
      isEffective pt op = true ∧ EffectiveSeq (applyEdit pt op) rest = true := by
  simp [EffectiveSeq, Bool.and_eq_true]

theorem effectiveSeq_append (A : List EditOp) : ∀ (pt : PieceTable) (B : List EditOp),
    EffectiveSeq pt (A ++ B) = true →
    EffectiveSeq pt A = true ∧ EffectiveSeq (applyEdits pt A) B = true := by
  induction A with
  | nil => exact fun pt B h => ⟨rfl, h⟩
  | cons op rest ih =>
    intro pt B h
    rw [List.cons_append, effectiveSeq_cons] at h
    obtain ⟨h1, h2⟩ := h
    obtain ⟨h3, h4⟩ := ih _ _ h2
    refine ⟨?_, ?_⟩
    · rw [effectiveSeq_cons]
      exact ⟨h1, h3⟩
    · rw [applyEdits_cons]
      exact h4

theorem recsOf_cons (pt : PieceTable) (op : EditOp) (rest : List EditOp) :
    recsOf pt (op :: rest) = recOf pt op :: recsOf (applyEdit pt op) rest := rfl

theorem recsOf_append (A : List EditOp) : ∀ (pt : PieceTable) (B : List EditOp),
    recsOf pt (A ++ B) = recsOf pt A ++ recsOf (applyEdits pt A) B := by
  induction A with
  | nil => intro pt B; simp [recsOf, applyEdits]
  | cons op rest ih =>
    intro pt B
    rw [List.cons_append, recsOf_cons, recsOf_cons, ih, applyEdits_cons, List.cons_append]

theorem recsOf_length (ops : List EditOp) : ∀ pt : PieceTable,
    (recsOf pt ops).length = ops.length := by
  induction ops with
  | nil => intro pt; rfl
  | cons op rest ih => intro pt; rw [recsOf_cons, List.length_cons, List.length_cons, ih]

theorem applyEdit_redoStack (pt : PieceTable) (op : EditOp) :
    (applyEdit pt op).redoStack = [] ∨ applyEdit pt op = pt := by
  by_cases h : isEffective pt op = true
  · exact Or.inl (replace_effective_spec pt op h).2.1
  · right
    unfold isEffective at h
    rw [decide_eq_true_iff, not_not] at h
    unfold applyEdit PieceTable.Replace
    rw [if_pos h]

theorem applyEdits_redoStack (ops : List EditOp) : ∀ pt : PieceTable,
    pt.redoStack = [] → (applyEdits pt ops).redoStack = [] := by
  induction ops with
  | nil => exact fun pt h => h
  | cons op rest ih =>
    intro pt h
    rw [applyEdits_cons]
    apply ih
    rcases applyEdit_redoStack pt op with h1 | h1
    · exact h1
    · rw [h1]
      exact h

theorem applyEdits_undoStack_length (ops : List EditOp) : ∀ pt : PieceTable,
    EffectiveSeq pt ops = true →
    (applyEdits pt ops).undoStack.length = ops.length + pt.undoStack.length := by
  induction ops with
  | nil => intro pt _; simp [applyEdits]
  | cons op rest ih =>
    intro pt h
    rw [effectiveSeq_cons] at h
    rw [applyEdits_cons, ih _ h.2, (replace_effective_spec pt op h.1).1]
    simp only [List.length_cons]
    omega

theorem undoSteps_applyEdits (ops : List EditOp) : ∀ pt : PieceTable,
    EffectiveSeq pt ops = true →
    undoSteps (applyEdits pt ops) ops.length =
      ⟨pt.content, pt.undoStack, recsOf pt ops ++ (applyEdits pt ops).redoStack⟩ := by
  induction ops with
  | nil => intro pt _; simp [applyEdits, recsOf, undoSteps]
  | cons op rest ih =>
    intro pt h
    rw [effectiveSeq_cons] at h
    obtain ⟨h1, h2⟩ := h
    have hspec := replace_effective_spec pt op h1
    rw [List.length_cons, undoSteps_succ, applyEdits_cons, ih _ h2, hspec.1,
      hspec.2.2.1, recsOf_cons, List.cons_append]

theorem redoSteps_recs (ops : List EditOp) : ∀ (pt : PieceTable) (R : List SwapRec),
    EffectiveSeq pt ops = true →
    redoSteps ⟨pt.content, pt.undoStack, recsOf pt ops ++ R⟩ ops.length =
      ⟨(applyEdits pt ops).content, (applyEdits pt ops).undoStack, R⟩ := by
  induction ops with
  | nil => intro pt R _; simp [recsOf, applyEdits, redoSteps]
  | cons op rest ih =>
    intro pt R h
    rw [effectiveSeq_cons] at h
    obtain ⟨h1, h2⟩ := h
    have hspec := replace_effective_spec pt op h1
    rw [List.length_cons, recsOf_cons, List.cons_append, redoSteps_succ, applyEdits_cons]
    have hredo := hspec.2.2.2 pt.undoStack (recsOf (applyEdit pt op) rest ++ R)
    rw [hredo, ← hspec.1, ih _ _ h2]

theorem undo_shape (pt : PieceTable) (h : pt.undoStack ≠ []) :
    ∃ r, pt.undoStack = r :: pt.Undo.1.undoStack ∧
      pt.Undo.1.redoStack = r :: pt.redoStack := by
  cases hm : pt.undoStack with
  | nil => exact absurd hm h
  | cons r rest =>
    refine ⟨r, ?_, ?_⟩ <;> simp [PieceTable.Undo, hm]

theorem redo_shape (pt : PieceTable) (h : pt.redoStack ≠ []) :
    ∃ r, pt.redoStack = r :: pt.Redo.1.redoStack ∧
      pt.Redo.1.undoStack = r :: pt.undoStack := by
  cases hm : pt.redoStack with
  | nil => exact absurd hm h
  | cons r rest =>
    refine ⟨r, ?_, ?_⟩ <;> simp [PieceTable.Redo, hm]

theorem redoSteps_succ2 (pt : PieceTable) (n : Nat) :
    redoSteps pt (n + 1) = (redoSteps pt n).Redo.1 := by
  unfold redoSteps
  exact Function.iterate_succ_apply' (fun p => p.Redo.1) n pt

/-- The round-trip property claimed for a sequence of edits: undoing
`|S|` times restores the initial content with an empty undo stack and a
redo stack of `|S|` batches, redoing `|S|` times restores the post-`S`
content and stacks, and every undo (resp. redo) step moves exactly one
batch between the stacks. -/
def C1RoundTrip (init : List Char) (ops : List EditOp) : Prop :=
  (undoSteps (applyEdits (NewPieceTable init) ops) ops.length).content = init ∧
  (undoSteps (applyEdits (NewPieceTable init) ops) ops.length).undoStack = [] ∧
  (undoSteps (applyEdits (NewPieceTable init) ops) ops.length).redoStack.length =
    ops.length ∧
  (redoSteps (undoSteps (applyEdits (NewPieceTable init) ops) ops.length)
      ops.length).content = (applyEdits (NewPieceTable init) ops).content ∧
  (redoSteps (undoSteps (applyEdits (NewPieceTable init) ops) ops.length)
      ops.length).undoStack.length = ops.length ∧
  (redoSteps (undoSteps (applyEdits (NewPieceTable init) ops) ops.length)
      ops.length).redoStack = [] ∧
  (∀ k, k < ops.length → ∃ r,
    (undoSteps (applyEdits (NewPieceTable init) ops) k).undoStack =
      r :: (undoSteps (applyEdits (NewPieceTable init) ops) (k + 1)).undoStack ∧
    (undoSteps (applyEdits (NewPieceTable init) ops) (k + 1)).redoStack =
      r :: (undoSteps (applyEdits (NewPieceTable init) ops) k).redoStack) ∧
  (∀ k, k < ops.length → ∃ r,
    (redoSteps (undoSteps (applyEdits (NewPieceTable init) ops) ops.length)
        k).redoStack =
      r :: (redoSteps (undoSteps (applyEdits (NewPieceTable init) ops) ops.length)
        (k + 1)).redoStack ∧
    (redoSteps (undoSteps (applyEdits (NewPieceTable init) ops) ops.length)
        (k + 1)).undoStack =
      r :: (redoSteps (undoSteps (applyEdits (NewPieceTable init) ops) ops.length)
        k).undoStack)

/-- C1 counterexample: the claim quantifies over every sequence of
insert/erase/replace operations, but inserting empty text is a §4.C
no-op that pushes no batch, so for `S = [insert 0 ""]` the single
`undo()` does not move a batch from the undo stack to the redo stack:
both stacks are empty before and after it. -/
theorem c1_noop_counterexample :
    ¬ ∃ r,
      (undoSteps (applyEdits (NewPieceTable []) [EditOp.insert 0 []]) 0).undoStack =
        r :: (undoSteps (applyEdits (NewPieceTable []) [EditOp.insert 0 []]) 1).undoStack ∧
      (undoSteps (applyEdits (NewPieceTable []) [EditOp.insert 0 []]) 1).redoStack =
        r :: (undoSteps (applyEdits (NewPieceTable []) [EditOp.insert 0 []]) 0).redoStack := by
  rintro ⟨r, h1, h2⟩
  have h0 : (undoSteps (applyEdits (NewPieceTable []) [EditOp.insert 0 []]) 0).undoStack =
      [] := by decide
  rw [h0] at h1
  exact List.cons_ne_nil r _ h1.symm

/-- C1 (amended to sequences of effective edits, excluding the spec's
§4.C no-ops): executing `S` on a fresh piece table and then calling
`undo()` `|S|` times restores the initial document content and leaves the
undo stack empty with `|S|` batches on the redo stack; `redo()` `|S|`
times then restores the post-`S` content and stacks; each undo moves
exactly one batch from the undo stack to the redo stack and each redo
moves one back. -/
theorem c1_undo_redo_roundtrip (init : List Char) (ops : List EditOp)
    (h : EffectiveSeq (NewPieceTable init) ops = true) : C1RoundTrip init ops := by
  unfold C1RoundTrip
  have hredo : (applyEdits (NewPieceTable init) ops).redoStack = [] :=
    applyEdits_redoStack ops _ rfl
  have hmain := undoSteps_applyEdits ops (NewPieceTable init) h
  rw [hredo, List.append_nil] at hmain
  have hredoMain := redoSteps_recs ops (NewPieceTable init) [] h
  rw [List.append_nil] at hredoMain
  have hU : undoSteps (applyEdits (NewPieceTable init) ops) ops.length =
      ⟨init, [], recsOf (NewPieceTable init) ops⟩ := hmain
  have hR : redoSteps (undoSteps (applyEdits (NewPieceTable init) ops) ops.length)
      ops.length =
      ⟨(applyEdits (NewPieceTable init) ops).content,
        (applyEdits (NewPieceTable init) ops).undoStack, []⟩ := by
    rw [hU]
    exact hredoMain
  refine ⟨by rw [hU], by rw [hU], ?_, by rw [hR], ?_, by rw [hR], ?_, ?_⟩
  · rw [hU]
    exact recsOf_length ops _
  · rw [hR]
    have := applyEdits_undoStack_length ops (NewPieceTable init) h
    simpa [NewPieceTable] using this
  · -- each undo moves one batch
    intro k hk
    have hAB : ops.take (ops.length - k) ++ ops.drop (ops.length - k) = ops :=
      List.take_append_drop _ _
    have hsplit := effectiveSeq_append (ops.take (ops.length - k)) (NewPieceTable init)
      (ops.drop (ops.length - k)) (by rw [hAB]; exact h)
    have hlenB : (ops.drop (ops.length - k)).length = k := by
      simp [List.length_drop]
      omega
    have hmainB := undoSteps_applyEdits (ops.drop (ops.length - k))
      (applyEdits (NewPieceTable init) (ops.take (ops.length - k))) hsplit.2
    rw [← applyEdits_append, hAB, hlenB] at hmainB
    have hlenA : (ops.take (ops.length - k)).length = ops.length - k := by
      simp [List.length_take]
    have hne : (undoSteps (applyEdits (NewPieceTable init) ops) k).undoStack ≠ [] := by
      rw [hmainB]
      have hul := applyEdits_undoStack_length (ops.take (ops.length - k))
        (NewPieceTable init) hsplit.1
      intro hnil
      simp only [] at hnil
      rw [hnil] at hul
      simp [NewPieceTable, hlenA] at hul
      omega
    have hstep := undo_shape _ hne
    rw [← undoSteps_succ] at hstep
    exact hstep
  · -- each redo moves one batch back
    intro k hk
    have hAB : ops.take k ++ ops.drop k = ops := List.take_append_drop _ _
    have hsplit := effectiveSeq_append (ops.take k) (NewPieceTable init)
      (ops.drop k) (by rw [hAB]; exact h)
    have hrecs : recsOf (NewPieceTable init) ops =
        recsOf (NewPieceTable init) (ops.take k) ++
          recsOf (applyEdits (NewPieceTable init) (ops.take k)) (ops.drop k) := by
      conv_lhs => rw [← hAB]
      exact recsOf_append _ _ _
    have hAlen : (ops.take k).length = k := by
      simp [List.length_take]
      omega
    have hredoK := redoSteps_recs (ops.take k) (NewPieceTable init)
      (recsOf (applyEdits (NewPieceTable init) (ops.take k)) (ops.drop k)) hsplit.1
    rw [hAlen] at hredoK
    have h1 : redoSteps (undoSteps (applyEdits (NewPieceTable init) ops) ops.length) k =
        ⟨(applyEdits (NewPieceTable init) (ops.take k)).content,
          (applyEdits (NewPieceTable init) (ops.take k)).undoStack,
          recsOf (applyEdits (NewPieceTable init) (ops.take k)) (ops.drop k)⟩ := by
      rw [hU, hrecs]
      exact hredoK
    have hne : (redoSteps (undoSteps (applyEdits (NewPieceTable init) ops) ops.length)
        k).redoStack ≠ [] := by
      rw [h1]
      intro hnil
      simp only [] at hnil
      have := recsOf_length (ops.drop k) (applyEdits (NewPieceTable init) (ops.take k))
      rw [hnil] at this
      simp [List.length_drop] at this
      omega
    have hstep := redo_shape _ hne
    rw [← redoSteps_succ2] at hstep
    exact hstep

/-- Witness for C1 on a concrete effective sequence: two effective edits
on initial content "ab". -/
theorem c1_undo_redo_roundtrip_witness :
    EffectiveSeq (NewPieceTable ['a', 'b'])
      [EditOp.insert 0 ['H', 'i'], EditOp.erase 1 3] = true ∧
    C1RoundTrip ['a', 'b'] [EditOp.insert 0 ['H', 'i'], EditOp.erase 1 3] :=
  ⟨by decide, c1_undo_redo_roundtrip _ _ (by decide)⟩

/- ===================================================================
   Line wrapper (editor/wrapping.go).  Glyph advances, line widths and
   the tab-stop interval are 26.6 fixed-point values (`fixed.Int26_6`),
   modelled as `Int` with Go's truncated division; `fixedI` is
   `fixed.I`.  The external go-text segmenters are modelled by the
   stream of break offsets (`segment.Offset + len(segment.Text)`) that
   successive iterator calls produce for the paragraph, in order, and
   the pulled glyph iterator by the list of glyphs it will yield.
   =================================================================== -/

/-- `fixed.I`: an integer number of pixels in 26.6 fixed point. -/
def fixedI (n : Int) : Int := n * 64

/-- A shaped glyph (`gioui.org/text.Glyph`) with the fields the wrapper
reads or writes: id, 26.6 advance, ascent, descent, offset, the number
of runes the glyph covers, and the cluster-break / paragraph-start
flags. -/
structure Glyph where
  id : Nat
  advance : Int
  ascent : Int
  descent : Int
  offsetX : Int
  offsetY : Int
  runes : Nat
  clusterBreak : Bool
  paragraphStart : Bool
deriving DecidableEq

/-- Sum of the advances of a list of glyphs. -/
def advanceSum (gs : List Glyph) : Int := (gs.map Glyph.advance).sum

/-- A visual `line`: the type is used by wrapping.go but defined in a
file outside the source snapshot.  Modelled from the spec: a visual
line "is a vector of glyphs plus a running x-advance". -/
structure line where
  glyphs : List Glyph
  width : Int
deriving DecidableEq

/-- Modelled from the spec: appending glyphs to a visual line keeps them
in logical order and accumulates their advances into the running
x-advance. -/
def line.append (l : line) (gs : List Glyph) : line :=
  ⟨l.glyphs ++ gs, l.width + advanceSum gs⟩

/-- `breaker` drives the word (UAX #14) and grapheme iterators over the
paragraph with a shared one-slot pushback (`prevBreak`/`prevUnread`).
Each segmenter iterator is modelled by its remaining stream of produced
break offsets. -/
structure breaker where
  wordSeg : List Nat
  graphemeSeg : List Nat
  runes : Nat
  prevBreak : Nat
  prevUnread : Bool
deriving DecidableEq

/-- `newBreaker` for a paragraph of `runes` runes whose segmenters
produce the given break-offset streams. -/
def newBreaker (wordSeg graphemeSeg : List Nat) (runes : Nat) : breaker :=
  ⟨wordSeg, graphemeSeg, runes, 0, false⟩

/-- The search loop shared by `nextWordBreak` and `nextGraphemeBreak`:
advance the segmenter until it yields an offset strictly beyond
`prevBreak`, returning it with the rest of the stream. -/
def nextBreakLoop (prevBreak : Nat) : List Nat → Option (Nat × List Nat)
  | [] => none
  | o :: rest =>
    if o > prevBreak then some (o, rest) else nextBreakLoop prevBreak rest

/-- `breaker.nextWordBreak`: replay the pushback if set, otherwise pull
the next strictly increasing offset from the word segmenter and record
it in `prevBreak`.  `none` models Go's `(0, false)`. -/
def breaker.nextWordBreak (b : breaker) : Option Nat × breaker :=
  if b.prevUnread then (some b.prevBreak, { b with prevUnread := false })
  else
    match nextBreakLoop b.prevBreak b.wordSeg with
    | some (o, rest) => (some o, { b with wordSeg := rest, prevBreak := o })
    | none => (none, { b with wordSeg := [] })

/-- `breaker.nextGraphemeBreak`: the same with the grapheme segmenter. -/
def breaker.nextGraphemeBreak (b : breaker) : Option Nat × breaker :=
  if b.prevUnread then (some b.prevBreak, { b with prevUnread := false })
  else
    match nextBreakLoop b.prevBreak b.graphemeSeg with
    | some (o, rest) => (some o, { b with graphemeSeg := rest, prevBreak := o })
    | none => (none, { b with graphemeSeg := [] })

/-- `breaker.markPrevUnread`. -/
def breaker.markPrevUnread (b : breaker) : breaker := { b with prevUnread := true }

/-- `glyphReader`: buffered reader over the pulled glyph iterator;
`stream` is what remains of the iterator. -/
structure glyphReader where
  stream : List Glyph
  buf : List Glyph
  overflow : Bool
deriving DecidableEq

/-- `glyphReader.next` pulls the next glyph, appends it to the buffer
and returns it.  Go returns `&gl`, a pointer to a local copy, so the
returned glyph is not aliased with the buffered copy: writes through it
never reach `buf`. -/
def glyphReader.next (g : glyphReader) : Option Glyph × glyphReader :=
  match g.stream with
  | [] => (none, g)
  | gl :: rest => (some gl, { g with stream := rest, buf := g.buf ++ [gl] })

/-- `glyphReader.advance`: cumulative advance of the buffered glyphs. -/
def glyphReader.advance (g : glyphReader) : Int := advanceSum g.buf

/-- `glyphReader.reset` empties the buffer and clears the overflow mark. -/
def glyphReader.reset (g : glyphReader) : glyphReader :=
  { g with buf := [], overflow := false }

theorem glyphReader_next_none (g : glyphReader) (g2 : glyphReader)
    (h : g.next = (none, g2)) : g2 = g ∧ g.stream = [] := by
  unfold glyphReader.next at h
  cases hs : g.stream with
  | nil =>
    rw [hs] at h
    injection h with h1 h2
    exact ⟨h2.symm, rfl⟩
  | cons a rest =>
    rw [hs] at h
    simp at h

theorem glyphReader_next_some (g : glyphReader) (gl : Glyph) (g2 : glyphReader)
    (h : g.next = (some gl, g2)) :
    g.stream = gl :: g2.stream ∧ g2.buf = g.buf ++ [gl] ∧
    g2.overflow = g.overflow ∧ g2.stream.length < g.stream.length := by
  unfold glyphReader.next at h
  cases hs : g.stream with
  | nil =>
    rw [hs] at h
    simp at h
  | cons a rest =>
    rw [hs] at h
    rw [Prod.mk.injEq] at h
    obtain ⟨h1, h2⟩ := h
    cases h1
    rw [← h2]
    simp [hs]

/-- The `lineWrapper` state: breaker, width limit in pixels, space
glyph, tab-stop interval, running rune offset, the line being assembled
and the buffered glyph reader. -/
structure lineWrapper where
  breaker : breaker
  maxWidth : Int
  spaceGlyph : Glyph
  tabStopInterval : Int
  runeOff : Nat
  currentLine : line
  glyphBuf : glyphReader
deriving DecidableEq

/-- `lineWrapper.setup` for a paragraph whose pulled glyph iterator
yields `stream` and whose segmenters yield the given break streams. -/
def lineWrapper.setup (stream : List Glyph) (wordSeg graphemeSeg : List Nat)
    (paragraphRunes : Nat) (maxWidth tabStopInterval : Int) (spaceGlyph : Glyph) :
    lineWrapper :=
  ⟨newBreaker wordSeg graphemeSeg paragraphRunes, maxWidth, spaceGlyph,
    tabStopInterval, 0, ⟨[], 0⟩, ⟨stream, [], false⟩⟩

/-- `expandTabGlyph`: rewrite a tab glyph's advance to reach the next
tab stop from the current line width — `nextTabStop` is
`(width / interval + 1) * interval` with Go's truncating division — zero
its offset, and adopt the space glyph's id, ascent and descent. -/
def expandTabGlyph (w : lineWrapper) (gl : Glyph) : Glyph :=
  { gl with
    advance := (Int.tdiv w.currentLine.width w.tabStopInterval + 1) *
      w.tabStopInterval - w.currentLine.width,
    offsetX := 0, offsetY := 0,
    id := w.spaceGlyph.id,
    ascent := w.spaceGlyph.ascent,
    descent := w.spaceGlyph.descent }

/-- `readToNextBreak`: pull glyphs until the running rune offset reaches
the break option; at each cluster-break glyph the rune offset advances
and, if the rune entering the cluster is a tab, `expandTabGlyph` is
applied — to the local copy `gl` that `glyphReader.next` returned, not
to the glyph stored in the buffer, so the expansion is discarded (the
buffered glyph keeps the shaper's advance).  Returns `false` (early
termination) with the overflow mark set once the buffered advance
exceeds the line width. -/
def readToNextBreak (w : lineWrapper) (breakAtIdx : Nat) (paragraph : List Nat) :
    Bool × lineWrapper :=
  if breakAtIdx > w.runeOff then
    match hn : w.glyphBuf.next with
    | (none, _) => (true, w)
    | (some gl, gb) =>
      let newOff := if gl.clusterBreak then w.runeOff + gl.runes else w.runeOff
      let _expanded :=
        if gl.clusterBreak ∧ paragraph.getD (newOff - 1) 0 = 9 then
          expandTabGlyph w gl
        else gl
      let w1 : lineWrapper := { w with glyphBuf := gb, runeOff := newOff }
      if w1.glyphBuf.advance > fixedI w1.maxWidth then
        (false, { w1 with glyphBuf := { w1.glyphBuf with overflow := true } })
      else readToNextBreak w1 breakAtIdx paragraph
  else (true, w)
termination_by w.glyphBuf.stream.length
decreasing_by
  exact (glyphReader_next_some _ _ _ hn).2.2.2

theorem nextBreakLoop_some (p : Nat) (l : List Nat) : ∀ (o : Nat) (rest : List Nat),
    nextBreakLoop p l = some (o, rest) → p < o ∧ rest.length < l.length := by
  induction l with
  | nil => intro o rest h; simp [nextBreakLoop] at h
  | cons a t ih =>
    intro o rest h
    unfold nextBreakLoop at h
    by_cases hc : a > p
    · rw [if_pos hc] at h
      injection h with h1
      injection h1 with h2 h3
      subst h2
      subst h3
      exact ⟨hc, by simp⟩
    · rw [if_neg hc] at h
      obtain ⟨h1, h2⟩ := ih o rest h
      exact ⟨h1, by simp; omega⟩

/-- The part of the wrapper's termination measure owned by the breaker. -/
def breakerMeasure (b : breaker) : Nat :=
  2 * b.wordSeg.length + 2 * b.graphemeSeg.length + (if b.prevUnread then 1 else 0)

theorem nextWordBreak_some_spec (b : breaker) (o : Nat) (b2 : breaker)
    (h : b.nextWordBreak = (some o, b2)) :
    breakerMeasure b2 < breakerMeasure b ∧ b2.prevBreak = o ∧
    b2.prevUnread = false ∧ (b.prevUnread = false → b.prevBreak < o) ∧
    b2.graphemeSeg = b.graphemeSeg := by
  unfold breaker.nextWordBreak at h
  by_cases hu : b.prevUnread
  · rw [if_pos hu] at h
    injection h with h1 h2
    injection h1 with h3
    subst h2
    subst h3
    refine ⟨by simp [breakerMeasure, hu], rfl, rfl, fun hf => ?_, rfl⟩
    rw [hu] at hf
    exact absurd hf (by simp)
  · rw [if_neg hu] at h
    cases hl : nextBreakLoop b.prevBreak b.wordSeg with
    | none => rw [hl] at h; simp at h
    | some pr =>
      obtain ⟨o1, rest⟩ := pr
      rw [hl] at h
      injection h with h1 h2
      injection h1 with h3
      subst h3
      subst h2
      obtain ⟨hlt, hlen⟩ := nextBreakLoop_some _ _ _ _ hl
      refine ⟨?_, rfl, by simp [hu], fun _ => hlt, rfl⟩
      simp [breakerMeasure, hu]
      omega

theorem nextWordBreak_none_spec (b : breaker) (b2 : breaker)
    (h : b.nextWordBreak = (none, b2)) :
    b2 = { b with wordSeg := [] } ∧ breakerMeasure b2 ≤ breakerMeasure b := by
  unfold breaker.nextWordBreak at h
  by_cases hu : b.prevUnread
  · rw [if_pos hu] at h
    simp at h
  · rw [if_neg hu] at h
    cases hl : nextBreakLoop b.prevBreak b.wordSeg with
    | none =>
      rw [hl] at h
      injection h with h1 h2
      subst h2
      exact ⟨rfl, by simp [breakerMeasure]⟩
    | some pr =>
      obtain ⟨o1, rest⟩ := pr
      rw [hl] at h
      simp at h

theorem nextGraphemeBreak_some_spec (b : breaker) (o : Nat) (b2 : breaker)
    (h : b.nextGraphemeBreak = (some o, b2)) :
    breakerMeasure b2 < breakerMeasure b ∧ b2.prevBreak = o ∧
    b2.prevUnread = false ∧ (b.prevUnread = false → b.prevBreak < o) ∧
    b2.wordSeg = b.wordSeg := by
  unfold breaker.nextGraphemeBreak at h
  by_cases hu : b.prevUnread
  · rw [if_pos hu] at h
    injection h with h1 h2
    injection h1 with h3
    subst h2
    subst h3
    refine ⟨by simp [breakerMeasure, hu], rfl, rfl, fun hf => ?_, rfl⟩
    rw [hu] at hf
    exact absurd hf (by simp)
  · rw [if_neg hu] at h
    cases hl : nextBreakLoop b.prevBreak b.graphemeSeg with
    | none => rw [hl] at h; simp at h
    | some pr =>
      obtain ⟨o1, rest⟩ := pr
      rw [hl] at h
      injection h with h1 h2
      injection h1 with h3
      subst h3
      subst h2
      obtain ⟨hlt, hlen⟩ := nextBreakLoop_some _ _ _ _ hl
      refine ⟨?_, rfl, by simp [hu], fun _ => hlt, rfl⟩
      simp [breakerMeasure, hu]
      omega

theorem nextGraphemeBreak_none_spec (b : breaker) (b2 : breaker)
    (h : b.nextGraphemeBreak = (none, b2)) :
    b2 = { b with graphemeSeg := [] } ∧ breakerMeasure b2 ≤ breakerMeasure b := by
  unfold breaker.nextGraphemeBreak at h
  by_cases hu : b.prevUnread
  · rw [if_pos hu] at h
    simp at h
  · rw [if_neg hu] at h
    cases hl : nextBreakLoop b.prevBreak b.graphemeSeg with
    | none =>
      rw [hl] at h
      injection h with h1 h2
      subst h2
      exact ⟨rfl, by simp [breakerMeasure]⟩
    | some pr =>
      obtain ⟨o1, rest⟩ := pr
      rw [hl] at h
      simp at h

theorem markPrevUnread_measure (b : breaker) :
    breakerMeasure b.markPrevUnread ≤ breakerMeasure b + 1 := by
  unfold breaker.markPrevUnread breakerMeasure
  by_cases hu : b.prevUnread <;> simp [hu]

theorem readToNextBreak_state : ∀ (w : lineWrapper) (idx : Nat) (par : List Nat)
    (done : Bool) (w1 : lineWrapper), readToNextBreak w idx par = (done, w1) →
    w1.breaker = w.breaker ∧ w1.currentLine = w.currentLine ∧
    w1.maxWidth = w.maxWidth ∧
    w1.glyphBuf.stream.length + w1.glyphBuf.buf.length =
      w.glyphBuf.stream.length + w.glyphBuf.buf.length := by
  intro w idx par
  induction w, idx, par using readToNextBreak.induct with
  | case1 w idx par hgt gb hn =>
    intro done w1 h
    obtain ⟨hg2, _⟩ := glyphReader_next_none _ _ hn
    unfold readToNextBreak at h
    rw [if_pos hgt, hn] at h
    simp only [] at h
    injection h with h1 h2
    subst h2
    exact ⟨rfl, rfl, rfl, rfl⟩
  | case2 w idx par hgt gl gb hn newOff w1x hadv =>
    intro done w1 h
    obtain ⟨hst, hbuf, hov, hlt⟩ := glyphReader_next_some _ _ _ hn
    have hadv2 : gb.advance > fixedI w.maxWidth := hadv
    unfold readToNextBreak at h
    rw [if_pos hgt, hn] at h
    simp only [] at h
    rw [if_pos hadv2] at h
    injection h with h1 h2
    subst h2
    refine ⟨rfl, rfl, rfl, ?_⟩
    simp only []
    rw [hbuf]
    simp [List.length_append]
    have : w.glyphBuf.stream.length = gb.stream.length + 1 := by
      rw [hst]
      simp
    omega
  | case3 w idx par hgt gl gb hn newOff w1x hadv ih =>
    intro done w1 h
    obtain ⟨hst, hbuf, hov, hlt⟩ := glyphReader_next_some _ _ _ hn
    have hadv2 : ¬ gb.advance > fixedI w.maxWidth := hadv
    unfold readToNextBreak at h
    rw [if_pos hgt, hn] at h
    simp only [] at h
    rw [if_neg hadv2] at h
    obtain ⟨ha, hb, hc, hd⟩ := ih done w1 h
    refine ⟨ha, hb, hc, ?_⟩
    rw [hd]
    simp only []
    rw [hbuf]
    simp [List.length_append]
    have : w.glyphBuf.stream.length = gb.stream.length + 1 := by
      rw [hst]
      simp
    omega
  | case4 w idx par hgt =>
    intro done w1 h
    unfold readToNextBreak at h
    rw [if_neg hgt] at h
    injection h with h1 h2
    subst h2
    exact ⟨rfl, rfl, rfl, rfl⟩

theorem readToNextBreak_false : ∀ (w : lineWrapper) (idx : Nat) (par : List Nat)
    (w1 : lineWrapper), readToNextBreak w idx par = (false, w1) →
    w1.glyphBuf.overflow = true ∧ w1.glyphBuf.advance > fixedI w1.maxWidth := by
  intro w idx par
  induction w, idx, par using readToNextBreak.induct with
  | case1 w idx par hgt gb hn =>
    intro w1 h
    unfold readToNextBreak at h
    rw [if_pos hgt, hn] at h
    simp only [] at h
    injection h with h1 h2
    exact absurd h1.symm (by simp)
  | case2 w idx par hgt gl gb hn newOff w1x hadv =>
    intro w1 h
    have hadv2 : gb.advance > fixedI w.maxWidth := hadv
    unfold readToNextBreak at h
    rw [if_pos hgt, hn] at h
    simp only [] at h
    rw [if_pos hadv2] at h
    injection h with h1 h2
    subst h2
    exact ⟨rfl, hadv2⟩
  | case3 w idx par hgt gl gb hn newOff w1x hadv ih =>
    intro w1 h
    have hadv2 : ¬ gb.advance > fixedI w.maxWidth := hadv
    unfold readToNextBreak at h
    rw [if_pos hgt, hn] at h
    simp only [] at h
    rw [if_neg hadv2] at h
    exact ih w1 h
  | case4 w idx par hgt =>
    intro w1 h
    unfold readToNextBreak at h
    rw [if_neg hgt] at h
    injection h with h1 h2
    exact absurd h1.symm (by simp)

/-- The `wrapState` tag recording why the word-break loop stopped. -/
inductive wrapState where
  | wrapNoFit
  | wrapWordOverflow
  | wrapLineOverflow
  | wrapEnd
deriving DecidableEq

/-- The first loop of `wrapNextLine`: extend the current line one word
break at a time.  On a word that alone overflows the line width the word
break is pushed back (`markPrevUnread`) and the loop stops with
`wrapWordOverflow`; on a full line it stops with `wrapLineOverflow`; on
segmenter exhaustion with `wrapEnd`.  Otherwise the buffered glyphs join
the current line and the buffer is reset. -/
def wordLoop (w : lineWrapper) (paragraph : List Nat) : lineWrapper × wrapState :=
  match hb : w.breaker.nextWordBreak with
  | (none, br) => ({ w with breaker := br }, .wrapEnd)
  | (some breakAtIdx, br) =>
    match hr : readToNextBreak { w with breaker := br } breakAtIdx paragraph with
    | (false, w1) =>
      ({ w1 with breaker := w1.breaker.markPrevUnread }, .wrapWordOverflow)
    | (true, w1) =>
      if w1.currentLine.width + w1.glyphBuf.advance > fixedI w1.maxWidth then
        (w1, .wrapLineOverflow)
      else
        wordLoop
          { w1 with
            currentLine := w1.currentLine.append w1.glyphBuf.buf,
            glyphBuf := w1.glyphBuf.reset } paragraph
termination_by breakerMeasure w.breaker
decreasing_by
  show breakerMeasure w1.breaker < breakerMeasure w.breaker
  rw [(readToNextBreak_state _ _ _ _ _ hr).1]
  exact (nextWordBreak_some_spec _ _ _ hb).1

/-- The grapheme fallback loop of `wrapNextLine`: only entered when the
word loop produced an empty line; resets the glyph buffer before each
read (dropping whatever it held), reads to the next grapheme break and
appends fitting pieces to the current line. -/
def graphemeLoop (w : lineWrapper) (paragraph : List Nat) : lineWrapper :=
  match hb : w.breaker.nextGraphemeBreak with
  | (none, br) => { w with breaker := br }
  | (some breakAtIdx, br) =>
    match hr : readToNextBreak { w with breaker := br, glyphBuf := w.glyphBuf.reset }
        breakAtIdx paragraph with
    | (true, w1) => w1
    | (false, w1) =>
      if w1.currentLine.width + w1.glyphBuf.advance > fixedI w1.maxWidth then w1
      else
        graphemeLoop { w1 with currentLine := w1.currentLine.append w1.glyphBuf.buf }
          paragraph
termination_by breakerMeasure w.breaker
decreasing_by
  show breakerMeasure w1.breaker < breakerMeasure w.breaker
  rw [(readToNextBreak_state _ _ _ _ _ hr).1]
  exact (nextGraphemeBreak_some_spec _ _ _ hb).1

/-- The final loop of `wrapNextLine` (the debug/fallback loop after the
grapheme loop): keep pulling glyphs, appending the whole buffer to the
current line and resetting it, until the iterator is exhausted. -/
def thirdLoop (w : lineWrapper) : lineWrapper :=
  match hn : w.glyphBuf.next with
  | (none, _) => w
  | (some gl, gb) =>
    let _isStart := gl.paragraphStart
    thirdLoop
      { w with currentLine := w.currentLine.append gb.buf, glyphBuf := gb.reset }
termination_by w.glyphBuf.stream.length
decreasing_by
  show gb.reset.stream.length < w.glyphBuf.stream.length
  exact (glyphReader_next_some _ _ _ hn).2.2.2

/-- The leading block of `wrapNextLine`: glyphs retained from the
previous call join the current line and the buffer is reset — unless the
buffer is marked overflow, in which case the source's empty else branch
leaves everything as is. -/
def handleRemaining (w : lineWrapper) : lineWrapper :=
  if w.glyphBuf.buf ≠ [] then
    if ¬ w.glyphBuf.overflow then
      { w with
        currentLine := w.currentLine.append w.glyphBuf.buf,
        glyphBuf := w.glyphBuf.reset }
    else w
  else w

/-- `wrapNextLine`: re-adopt retained glyphs from the previous call, run
the word-break loop, and return the current line if it is nonempty;
otherwise fall back to the grapheme loop and the final pull loop. -/
def wrapNextLine (w : lineWrapper) (paragraph : List Nat) : line × lineWrapper :=
  let w0 := handleRemaining w
  let (w1, _state) := wordLoop w0 paragraph
  if w1.currentLine.glyphs ≠ [] then (w1.currentLine, w1)
  else
    let w2 := graphemeLoop w1 paragraph
    let w3 := thirdLoop w2
    (w3.currentLine, w3)

/-- Termination measure of the whole wrapper state: remaining glyphs
(stream and buffer) plus the breaker measure. -/
def totalMeasure (w : lineWrapper) : Nat :=
  w.glyphBuf.stream.length + w.glyphBuf.buf.length + breakerMeasure w.breaker

theorem wordLoop_state : ∀ (w : lineWrapper) (par : List Nat) (w2 : lineWrapper)
    (tag : wrapState), wordLoop w par = (w2, tag) →
    totalMeasure w2 ≤ totalMeasure w ∧
    (w2.currentLine = w.currentLine ∨ totalMeasure w2 < totalMeasure w) := by
  intro w par
  induction w, par using wordLoop.induct with
  | case1 w par br hb =>
    intro w2 tag h
    unfold wordLoop at h
    rw [hb] at h
    simp only [] at h
    injection h with h1 h2
    subst h1
    obtain ⟨hbr, hm⟩ := nextWordBreak_none_spec _ _ hb
    refine ⟨?_, Or.inl rfl⟩
    show w.glyphBuf.stream.length + w.glyphBuf.buf.length + breakerMeasure br ≤
      w.glyphBuf.stream.length + w.glyphBuf.buf.length + breakerMeasure w.breaker
    omega
  | case2 w par breakAtIdx br hb w1 hr =>
    intro w2 tag h
    unfold wordLoop at h
    rw [hb] at h
    simp only [] at h
    rw [hr] at h
    simp only [] at h
    injection h with h1 h2
    subst h1
    have hm1 : breakerMeasure br < breakerMeasure w.breaker :=
      (nextWordBreak_some_spec _ _ _ hb).1
    obtain ⟨hbrk, hline, hmw, hsum⟩ := readToNextBreak_state _ _ _ _ _ hr
    have hbr2 : w1.breaker = br := hbrk
    have hsum2 : w1.glyphBuf.stream.length + w1.glyphBuf.buf.length =
        w.glyphBuf.stream.length + w.glyphBuf.buf.length := hsum
    have hline2 : w1.currentLine = w.currentLine := hline
    refine ⟨?_, Or.inl hline2⟩
    show w1.glyphBuf.stream.length + w1.glyphBuf.buf.length +
        breakerMeasure w1.breaker.markPrevUnread ≤
      w.glyphBuf.stream.length + w.glyphBuf.buf.length + breakerMeasure w.breaker
    have hmp := markPrevUnread_measure w1.breaker
    rw [hbr2] at hmp
    rw [hbr2]
    omega
  | case3 w par breakAtIdx br hb w1 hr hfit =>
    intro w2 tag h
    unfold wordLoop at h
    rw [hb] at h
    simp only [] at h
    rw [hr] at h
    simp only [] at h
    rw [if_pos hfit] at h
    injection h with h1 h2
    subst h1
    have hm1 : breakerMeasure br < breakerMeasure w.breaker :=
      (nextWordBreak_some_spec _ _ _ hb).1
    obtain ⟨hbrk, hline, hmw, hsum⟩ := readToNextBreak_state _ _ _ _ _ hr
    have hbr2 : w1.breaker = br := hbrk
    have hsum2 : w1.glyphBuf.stream.length + w1.glyphBuf.buf.length =
        w.glyphBuf.stream.length + w.glyphBuf.buf.length := hsum
    have hlt : totalMeasure w1 < totalMeasure w := by
      unfold totalMeasure
      rw [hbr2]
      omega
    exact ⟨hlt.le, Or.inr hlt⟩
  | case4 w par breakAtIdx br hb w1 hr hfit ih =>
    intro w2 tag h
    unfold wordLoop at h
    rw [hb] at h
    simp only [] at h
    rw [hr] at h
    simp only [] at h
    rw [if_neg hfit] at h
    have hm1 : breakerMeasure br < breakerMeasure w.breaker :=
      (nextWordBreak_some_spec _ _ _ hb).1
    obtain ⟨hbrk, hline, hmw, hsum⟩ := readToNextBreak_state _ _ _ _ _ hr
    have hbr2 : w1.breaker = br := hbrk
    have hsum2 : w1.glyphBuf.stream.length + w1.glyphBuf.buf.length =
        w.glyphBuf.stream.length + w.glyphBuf.buf.length := hsum
    obtain ⟨hle, _⟩ := ih w2 tag h
    have harg : totalMeasure
        { w1 with
          currentLine := w1.currentLine.append w1.glyphBuf.buf,
          glyphBuf := w1.glyphBuf.reset } < totalMeasure w := by
      show w1.glyphBuf.reset.stream.length + w1.glyphBuf.reset.buf.length +
          breakerMeasure w1.breaker <
        w.glyphBuf.stream.length + w.glyphBuf.buf.length + breakerMeasure w.breaker
      have : w1.glyphBuf.reset.stream.length = w1.glyphBuf.stream.length := rfl
      have h0 : w1.glyphBuf.reset.buf.length = 0 := rfl
      rw [this, h0, hbr2]
      omega
    have hlt : totalMeasure w2 < totalMeasure w := lt_of_le_of_lt hle harg
    exact ⟨hlt.le, Or.inr hlt⟩

theorem graphemeLoop_state : ∀ (w : lineWrapper) (par : List Nat) (w2 : lineWrapper),
    graphemeLoop w par = w2 →
    totalMeasure w2 ≤ totalMeasure w ∧
    (w2.currentLine = w.currentLine ∨ totalMeasure w2 < totalMeasure w) := by
  intro w par
  induction w, par using graphemeLoop.induct with
  | case1 w par br hb =>
    intro w2 h
    unfold graphemeLoop at h
    rw [hb] at h
    simp only [] at h
    subst h
    obtain ⟨hbr, hm⟩ := nextGraphemeBreak_none_spec _ _ hb
    refine ⟨?_, Or.inl rfl⟩
    show w.glyphBuf.stream.length + w.glyphBuf.buf.length + breakerMeasure br ≤
      w.glyphBuf.stream.length + w.glyphBuf.buf.length + breakerMeasure w.breaker
    omega
  | case2 w par breakAtIdx br hb w1 hr =>
    intro w2 h
    unfold graphemeLoop at h
    rw [hb] at h
    simp only [] at h
    rw [hr] at h
    simp only [] at h
    subst h
    have hm1 : breakerMeasure br < breakerMeasure w.breaker :=
      (nextGraphemeBreak_some_spec _ _ _ hb).1
    obtain ⟨hbrk, hline, hmw, hsum⟩ := readToNextBreak_state _ _ _ _ _ hr
    have hbr2 : w1.breaker = br := hbrk
    have hsum2 : w1.glyphBuf.stream.length + w1.glyphBuf.buf.length =
        w.glyphBuf.stream.length + w.glyphBuf.reset.buf.length := hsum
    have h0 : w.glyphBuf.reset.buf.length = 0 := rfl
    have hlt : totalMeasure w1 < totalMeasure w := by
      unfold totalMeasure
      rw [hbr2]
      omega
    exact ⟨hlt.le, Or.inr hlt⟩
  | case3 w par breakAtIdx br hb w1 hr hfit =>
    intro w2 h
    unfold graphemeLoop at h
    rw [hb] at h
    simp only [] at h
    rw [hr] at h
    simp only [] at h
    rw [if_pos hfit] at h
    subst h
    have hm1 : breakerMeasure br < breakerMeasure w.breaker :=
      (nextGraphemeBreak_some_spec _ _ _ hb).1
    obtain ⟨hbrk, hline, hmw, hsum⟩ := readToNextBreak_state _ _ _ _ _ hr
    have hbr2 : w1.breaker = br := hbrk
    have hsum2 : w1.glyphBuf.stream.length + w1.glyphBuf.buf.length =
        w.glyphBuf.stream.length + w.glyphBuf.reset.buf.length := hsum
    have h0 : w.glyphBuf.reset.buf.length = 0 := rfl
    have hlt : totalMeasure w1 < totalMeasure w := by
      unfold totalMeasure
      rw [hbr2]
      omega
    exact ⟨hlt.le, Or.inr hlt⟩
  | case4 w par breakAtIdx br hb w1 hr hfit ih =>
    intro w2 h
    unfold graphemeLoop at h
    rw [hb] at h
    simp only [] at h
    rw [hr] at h
    simp only [] at h
    rw [if_neg hfit] at h
    have hm1 : breakerMeasure br < breakerMeasure w.breaker :=
      (nextGraphemeBreak_some_spec _ _ _ hb).1
    obtain ⟨hbrk, hline, hmw, hsum⟩ := readToNextBreak_state _ _ _ _ _ hr
    have hbr2 : w1.breaker = br := hbrk
    have hsum2 : w1.glyphBuf.stream.length + w1.glyphBuf.buf.length =
        w.glyphBuf.stream.length + w.glyphBuf.reset.buf.length := hsum
    have h0 : w.glyphBuf.reset.buf.length = 0 := rfl
    obtain ⟨hle, _⟩ := ih w2 h
    have harg : totalMeasure
        { w1 with currentLine := w1.currentLine.append w1.glyphBuf.buf } <
        totalMeasure w := by
      show w1.glyphBuf.stream.length + w1.glyphBuf.buf.length +
          breakerMeasure w1.breaker <
        w.glyphBuf.stream.length + w.glyphBuf.buf.length + breakerMeasure w.breaker
      rw [hbr2]
      omega
    have hlt : totalMeasure w2 < totalMeasure w := lt_of_le_of_lt hle harg
    exact ⟨hlt.le, Or.inr hlt⟩

theorem thirdLoop_state : ∀ (w : lineWrapper) (w2 : lineWrapper),
    thirdLoop w = w2 →
    totalMeasure w2 ≤ totalMeasure w ∧
    (w2.currentLine = w.currentLine ∨ totalMeasure w2 < totalMeasure w) := by
  intro w
  induction w using thirdLoop.induct with
  | case1 w gb hn =>
    intro w2 h
    unfold thirdLoop at h
    rw [hn] at h
    simp only [] at h
    subst h
    exact ⟨le_refl _, Or.inl rfl⟩
  | case2 w gl gb hn ih =>
    intro w2 h
    unfold thirdLoop at h
    rw [hn] at h
    simp only [] at h
    obtain ⟨hst, hbuf, hov, hlt0⟩ := glyphReader_next_some _ _ _ hn
    obtain ⟨hle, _⟩ := ih w2 h
    have harg : totalMeasure
        { w with currentLine := w.currentLine.append gb.buf, glyphBuf := gb.reset } <
        totalMeasure w := by
      show gb.reset.stream.length + gb.reset.buf.length + breakerMeasure w.breaker <
        w.glyphBuf.stream.length + w.glyphBuf.buf.length + breakerMeasure w.breaker
      have h1 : gb.reset.stream.length = gb.stream.length := rfl
      have h2 : gb.reset.buf.length = 0 := rfl
      rw [h1, h2]
      omega
    have hlt : totalMeasure w2 < totalMeasure w := lt_of_le_of_lt hle harg
    exact ⟨hlt.le, Or.inr hlt⟩

theorem handleRemaining_state (w : lineWrapper) :
    (handleRemaining w = w ∨ totalMeasure (handleRemaining w) < totalMeasure w) ∧
    totalMeasure (handleRemaining w) ≤ totalMeasure w := by
  unfold handleRemaining
  by_cases h1 : w.glyphBuf.buf ≠ []
  · by_cases h2 : ¬ w.glyphBuf.overflow
    · rw [if_pos h1, if_pos h2]
      have hlt : totalMeasure
          { w with
            currentLine := w.currentLine.append w.glyphBuf.buf,
            glyphBuf := w.glyphBuf.reset } < totalMeasure w := by
        show w.glyphBuf.reset.stream.length + w.glyphBuf.reset.buf.length +
            breakerMeasure w.breaker <
          w.glyphBuf.stream.length + w.glyphBuf.buf.length + breakerMeasure w.breaker
        have ha : w.glyphBuf.reset.stream.length = w.glyphBuf.stream.length := rfl
        have hb : w.glyphBuf.reset.buf.length = 0 := rfl
        have hc : 0 < w.glyphBuf.buf.length := List.length_pos.mpr h1
        rw [ha, hb]
        omega
      exact ⟨Or.inr hlt, hlt.le⟩
    · rw [if_pos h1, if_neg h2]
      exact ⟨Or.inl rfl, le_refl _⟩
  · rw [if_neg h1]
    exact ⟨Or.inl rfl, le_refl _⟩

theorem wrapNextLine_measure (w : lineWrapper) (par : List Nat)
    (hempty : w.currentLine.glyphs = []) (l : line) (w2 : lineWrapper)
    (h : wrapNextLine w par = (l, w2)) :
    totalMeasure w2 ≤ totalMeasure w ∧
    (l.glyphs ≠ [] → totalMeasure w2 < totalMeasure w) := by
  unfold wrapNextLine at h
  dsimp only at h
  rcases hWL : wordLoop (handleRemaining w) par with ⟨w1, tag⟩
  rw [hWL] at h
  simp only [] at h
  obtain ⟨hlead, hleadLe⟩ := handleRemaining_state w
  obtain ⟨hwLe, hwOr⟩ := wordLoop_state _ _ _ _ hWL
  by_cases hNE : w1.currentLine.glyphs ≠ []
  · rw [if_pos hNE] at h
    injection h with h1 h2
    subst h1
    subst h2
    refine ⟨le_trans hwLe hleadLe, fun _ => ?_⟩
    rcases hwOr with heq | hlt
    · rcases hlead with hl1 | hl1
      · rw [hl1] at heq
        rw [heq] at hNE
        exact absurd hempty hNE
      · exact lt_of_le_of_lt hwLe hl1
    · exact lt_of_lt_of_le hlt hleadLe
  · rw [if_neg hNE] at h
    injection h with h1 h2
    subst h1
    subst h2
    rw [not_not] at hNE
    obtain ⟨hgLe, hgOr⟩ := graphemeLoop_state w1 par (graphemeLoop w1 par) rfl
    obtain ⟨htLe, htOr⟩ := thirdLoop_state (graphemeLoop w1 par)
      (thirdLoop (graphemeLoop w1 par)) rfl
    refine ⟨le_trans htLe (le_trans hgLe (le_trans hwLe hleadLe)), fun hne => ?_⟩
    rcases htOr with ht1 | ht1
    · rcases hgOr with hg1 | hg1
      · rw [hg1] at ht1
        rw [ht1] at hne
        exact absurd hNE hne
      · exact lt_of_le_of_lt htLe (lt_of_lt_of_le hg1 (le_trans hwLe hleadLe))
    · exact lt_of_lt_of_le ht1 (le_trans hgLe (le_trans hwLe hleadLe))

/-- The loop of `WrapParagraph`: the current line is the empty line at
each entry (setup initialises it and the Go loop re-assigns `line{}`
after appending); wrapping stops the first time a returned line has no
glyphs. -/
def wrapParagraphLoop (w : lineWrapper) (paragraph : List Nat) : List line :=
  match hl : wrapNextLine { w with currentLine := ⟨[], 0⟩ } paragraph with
  | (l, w2) => if hg : l.glyphs = [] then [] else l :: wrapParagraphLoop w2 paragraph
termination_by totalMeasure w
decreasing_by
  exact (wrapNextLine_measure { w with currentLine := ⟨[], 0⟩ } paragraph rfl l w2 hl).2 hg

/-- `WrapParagraph` over a pulled glyph iterator yielding `stream`, for a
paragraph whose segmenters yield the given break streams. -/
def WrapParagraph (stream : List Glyph) (paragraph : List Nat)
    (wordSeg graphemeSeg : List Nat) (maxWidth tabStopInterval : Int)
    (spaceGlyph : Glyph) : List line :=
  wrapParagraphLoop
    (lineWrapper.setup stream wordSeg graphemeSeg paragraph.length maxWidth
      tabStopInterval spaceGlyph) paragraph

/- ===================================================================
   Claims C9, C7, C5, C4, C10.
   =================================================================== -/

/-- C9: the offsets returned by successive successful `nextWordBreak`
calls are strictly increasing rune indices, and after `markPrevUnread`
the next call to either `nextWordBreak` or `nextGraphemeBreak` returns
the most recently returned break offset again without consuming either
segmenter stream — the one-slot pushback (`prevBreak`/`prevUnread`) is
shared between the word and grapheme iterators. -/
theorem c9_breaker_pushback :
    (∀ (b : breaker) (o1 : Nat) (b1 : breaker) (o2 : Nat) (b2 : breaker),
      b.prevUnread = false → b.nextWordBreak = (some o1, b1) →
      b1.nextWordBreak = (some o2, b2) → o1 < o2) ∧
    (∀ (b : breaker) (o : Nat) (b1 : breaker),
      b.nextWordBreak = (some o, b1) →
      b1.markPrevUnread.nextWordBreak = (some o, { b1 with prevUnread := false }) ∧
      b1.markPrevUnread.nextGraphemeBreak =
        (some o, { b1 with prevUnread := false })) := by
  constructor
  · intro b o1 b1 o2 b2 hu h1 h2
    obtain ⟨_, hpb1, hpu1, _, _⟩ := nextWordBreak_some_spec _ _ _ h1
    obtain ⟨_, _, _, hlt, _⟩ := nextWordBreak_some_spec _ _ _ h2
    have := hlt hpu1
    rw [hpb1] at this
    exact this
  · intro b o b1 h
    obtain ⟨_, hpb, hpu, _, _⟩ := nextWordBreak_some_spec _ _ _ h
    constructor
    · unfold breaker.nextWordBreak breaker.markPrevUnread
      rw [if_pos rfl]
      rw [show ({ b1 with prevUnread := true } : breaker).prevBreak = o from hpb]
    · unfold breaker.nextGraphemeBreak breaker.markPrevUnread
      rw [if_pos rfl]
      rw [show ({ b1 with prevUnread := true } : breaker).prevBreak = o from hpb]

/-- Witness for C9 at a concrete breaker with word breaks 2 and 5 and
grapheme breaks 1, 2: successive word breaks 2 then 5 increase, and the
pushback replays 2 on either iterator. -/
theorem c9_breaker_pushback_witness :
    ((breaker.mk [2, 5] [1, 2] 5 0 false).prevUnread = false ∧
      (breaker.mk [2, 5] [1, 2] 5 0 false).nextWordBreak =
        (some 2, breaker.mk [5] [1, 2] 5 2 false) ∧
      (breaker.mk [5] [1, 2] 5 2 false).nextWordBreak =
        (some 5, breaker.mk [] [1, 2] 5 5 false) ∧
      2 < 5) ∧
    ((breaker.mk [5] [1, 2] 5 2 false).markPrevUnread.nextWordBreak =
      (some 2, { breaker.mk [5] [1, 2] 5 2 false with prevUnread := false }) ∧
    (breaker.mk [5] [1, 2] 5 2 false).markPrevUnread.nextGraphemeBreak =
      (some 2, { breaker.mk [5] [1, 2] 5 2 false with prevUnread := false })) :=
  ⟨⟨rfl, by decide, by decide,
    c9_breaker_pushback.1 (breaker.mk [2, 5] [1, 2] 5 0 false) 2
      (breaker.mk [5] [1, 2] 5 2 false) 5 (breaker.mk [] [1, 2] 5 5 false)
      rfl (by decide) (by decide)⟩,
    c9_breaker_pushback.2 (breaker.mk [2, 5] [1, 2] 5 0 false) 2
      (breaker.mk [5] [1, 2] 5 2 false) (by decide)⟩

/-- C7: when reading up to the next word break makes the buffered word's
advance alone exceed the line width, `readToNextBreak` terminates early
with the glyph buffer marked overflow; the word loop then pushes the
current word break back (`markPrevUnread`) and stops with
`wrapWordOverflow`, after which that same offset is what the grapheme
iterator — consulted next by `wrapNextLine` when the current line is
empty — returns, without consuming the segmenters: the word is broken at
grapheme boundaries instead. -/
theorem c7_word_overflow_grapheme_fallback :
    (∀ (w : lineWrapper) (idx : Nat) (par : List Nat) (w1 : lineWrapper),
      readToNextBreak w idx par = (false, w1) →
      w1.glyphBuf.overflow = true ∧ w1.glyphBuf.advance > fixedI w1.maxWidth) ∧
    (∀ (w : lineWrapper) (par : List Nat) (w2 : lineWrapper),
      wordLoop w par = (w2, .wrapWordOverflow) →
      w2.glyphBuf.overflow = true ∧ w2.breaker.prevUnread = true ∧
      w2.breaker.nextGraphemeBreak =
        (some w2.breaker.prevBreak, { w2.breaker with prevUnread := false }) ∧
      w2.breaker.nextWordBreak =
        (some w2.breaker.prevBreak, { w2.breaker with prevUnread := false })) ∧
    (∀ (w : lineWrapper) (par : List Nat) (w1 : lineWrapper),
      wordLoop (handleRemaining w) par = (w1, .wrapWordOverflow) →
      w1.currentLine.glyphs = [] →
      wrapNextLine w par =
        ((thirdLoop (graphemeLoop w1 par)).currentLine,
          thirdLoop (graphemeLoop w1 par))) := by
  refine ⟨readToNextBreak_false, ?_, ?_⟩
  · intro w par
    induction w, par using wordLoop.induct with
    | case1 w par br hb =>
      intro w2 h
      unfold wordLoop at h
      rw [hb] at h
      simp only [] at h
      injection h with h1 h2
      simp at h2
    | case2 w par breakAtIdx br hb w1 hr =>
      intro w2 h
      unfold wordLoop at h
      rw [hb] at h
      simp only [] at h
      rw [hr] at h
      simp only [] at h
      injection h with h1 h2
      subst h1
      obtain ⟨hov, _⟩ := readToNextBreak_false _ _ _ _ hr
      refine ⟨hov, rfl, ?_, ?_⟩
      · unfold breaker.nextGraphemeBreak breaker.markPrevUnread
        rw [if_pos rfl]
      · unfold breaker.nextWordBreak breaker.markPrevUnread
        rw [if_pos rfl]
    | case3 w par breakAtIdx br hb w1 hr hfit =>
      intro w2 h
      unfold wordLoop at h
      rw [hb] at h
      simp only [] at h
      rw [hr] at h
      simp only [] at h
      rw [if_pos hfit] at h
      injection h with h1 h2
      simp at h2
    | case4 w par breakAtIdx br hb w1 hr hfit ih =>
      intro w2 h
      unfold wordLoop at h
      rw [hb] at h
      simp only [] at h
      rw [hr] at h
      simp only [] at h
      rw [if_neg hfit] at h
      exact ih w2 h
  · intro w par w1 h hline
    unfold wrapNextLine
    dsimp only
    rw [h]
    simp only []
    rw [if_neg (by rw [hline]; simp)]

/-- Space glyph used by the wrapper witnesses. -/
def spaceGlyphW : Glyph := ⟨7, 40, 11, 3, 0, 0, 1, true, false⟩

/-- A cluster-break glyph of one rune whose advance (6400 units = 100
pixels) alone exceeds a 50-pixel line. -/
def wideGlyphW : Glyph := ⟨1, 6400, 8, 2, 0, 0, 1, true, false⟩

/-- Wrapper state for the one-word paragraph "a" shaped to `wideGlyphW`
with a 50-pixel line width. -/
def c7Start : lineWrapper := lineWrapper.setup [wideGlyphW] [1] [1] 1 50 256 spaceGlyphW

/-- `c7Start` after its word break (offset 1) has been fetched. -/
def c7Mid : lineWrapper := { c7Start with breaker := ⟨[], [1], 1, 1, false⟩ }

/-- `c7Mid` after `readToNextBreak` pulled the wide glyph and overflowed. -/
def c7Out : lineWrapper := { c7Mid with runeOff := 1, glyphBuf := ⟨[], [wideGlyphW], true⟩ }

/-- `c7Out` after the word loop pushed the break back. -/
def c7Over : lineWrapper := { c7Out with breaker := ⟨[], [1], 1, 1, true⟩ }

theorem c7_readToNextBreak_eval : readToNextBreak c7Mid 1 [97] = (false, c7Out) := by
  unfold readToNextBreak
  simp [c7Mid, c7Start, c7Out, lineWrapper.setup, newBreaker, glyphReader.next,
    glyphReader.advance, advanceSum, fixedI, wideGlyphW, spaceGlyphW]

theorem c7_wordLoop_eval : wordLoop c7Start [97] = (c7Over, .wrapWordOverflow) := by
  have h1 : c7Start.breaker.nextWordBreak =
      (some 1, (⟨[], [1], 1, 1, false⟩ : breaker)) := by decide
  have h2 : readToNextBreak
      { c7Start with breaker := (⟨[], [1], 1, 1, false⟩ : breaker) } 1 [97] =
      (false, c7Out) := c7_readToNextBreak_eval
  unfold wordLoop
  rw [h1]
  simp only []
  rw [h2]
  rfl

/-- Witness for C7: a single wide word overflows the 50-pixel line; the
buffer is marked overflow, the break is pushed back and replayed by the
grapheme iterator, and `wrapNextLine` proceeds with the grapheme
fallback. -/
theorem c7_word_overflow_grapheme_fallback_witness :
    (readToNextBreak c7Mid 1 [97] = (false, c7Out) ∧
      c7Out.glyphBuf.overflow = true ∧
      c7Out.glyphBuf.advance > fixedI c7Out.maxWidth) ∧
    (wordLoop c7Start [97] = (c7Over, .wrapWordOverflow) ∧
      c7Over.glyphBuf.overflow = true ∧ c7Over.breaker.prevUnread = true ∧
      c7Over.breaker.nextGraphemeBreak =
        (some c7Over.breaker.prevBreak, { c7Over.breaker with prevUnread := false }) ∧
      c7Over.breaker.nextWordBreak =
        (some c7Over.breaker.prevBreak, { c7Over.breaker with prevUnread := false })) ∧
    (wordLoop (handleRemaining c7Start) [97] = (c7Over, .wrapWordOverflow) ∧
      c7Over.currentLine.glyphs = [] ∧
      wrapNextLine c7Start [97] =
        ((thirdLoop (graphemeLoop c7Over [97])).currentLine,
          thirdLoop (graphemeLoop c7Over [97]))) := by
  have hHR : handleRemaining c7Start = c7Start := by decide
  have hW2 : wordLoop (handleRemaining c7Start) [97] = (c7Over, .wrapWordOverflow) := by
    rw [hHR]
    exact c7_wordLoop_eval
  refine ⟨⟨c7_readToNextBreak_eval, ?_⟩, ⟨c7_wordLoop_eval, ?_⟩, hW2, rfl, ?_⟩
  · exact c7_word_overflow_grapheme_fallback.1 c7Mid 1 [97] c7Out c7_readToNextBreak_eval
  · exact c7_word_overflow_grapheme_fallback.2.1 c7Start [97] c7Over c7_wordLoop_eval
  · exact c7_word_overflow_grapheme_fallback.2.2 c7Start [97] c7Over hW2 rfl

/-- The tab glyph of the spec's "\tX" wrap scenario: one rune, cluster
break, shaper advance 10. -/
def tabGlyphW : Glyph := ⟨1, 10, 8, 2, 0, 0, 1, true, false⟩

/-- The glyph for the rune X following the tab: one rune, advance 10. -/
def xGlyphW : Glyph := ⟨2, 10, 8, 2, 0, 0, 1, true, false⟩

/-- C5 failing input, spec scenario 7: paragraph "\tX" (runes 9, 88),
word breaks after each rune, tab stops every 256 units, line width 100
pixels.  `expandTabGlyph` computes the spec's rewritten advance
`(0 / 256 + 1) * 256 - 0 = 256` and the space glyph id 7 — but
`glyphReader.next` returns a pointer to a local copy of the glyph, so
the rewrite lands on a dead copy and the emitted visual line still
carries the tab glyph with the shaper's advance 10 and id 1: the width
of the single produced line is 10 + 10 = 20, not 256 + 10. -/
theorem c5_tab_expansion_lost :
    WrapParagraph [tabGlyphW, xGlyphW] [9, 88] [1, 2] [1, 2] 100 256 spaceGlyphW =
      [⟨[tabGlyphW, xGlyphW], 20⟩] ∧
    (expandTabGlyph
      (lineWrapper.setup [tabGlyphW, xGlyphW] [1, 2] [1, 2] 2 100 256 spaceGlyphW)
      tabGlyphW).advance = 256 ∧
    (expandTabGlyph
      (lineWrapper.setup [tabGlyphW, xGlyphW] [1, 2] [1, 2] 2 100 256 spaceGlyphW)
      tabGlyphW).id = 7 ∧
    tabGlyphW.advance = 10 ∧ tabGlyphW.id = 1 := by
  have r1 : readToNextBreak
      { (⟨⟨[1, 2], [1, 2], 2, 0, false⟩, 100, spaceGlyphW, 256, 0, ⟨[], 0⟩,
          ⟨[tabGlyphW, xGlyphW], [], false⟩⟩ : lineWrapper) with
        breaker := (⟨[2], [1, 2], 2, 1, false⟩ : breaker) } 1 [9, 88] =
      (true, ⟨⟨[2], [1, 2], 2, 1, false⟩, 100, spaceGlyphW, 256, 1, ⟨[], 0⟩,
        ⟨[xGlyphW], [tabGlyphW], false⟩⟩) := by
    simp [readToNextBreak, glyphReader.next, glyphReader.advance, advanceSum, fixedI,
      tabGlyphW, xGlyphW, spaceGlyphW]
  have r2 : readToNextBreak
      { (⟨⟨[2], [1, 2], 2, 1, false⟩, 100, spaceGlyphW, 256, 1, ⟨[tabGlyphW], 10⟩,
          ⟨[xGlyphW], [], false⟩⟩ : lineWrapper) with
        breaker := (⟨[], [1, 2], 2, 2, false⟩ : breaker) } 2 [9, 88] =
      (true, ⟨⟨[], [1, 2], 2, 2, false⟩, 100, spaceGlyphW, 256, 2, ⟨[tabGlyphW], 10⟩,
        ⟨[], [xGlyphW], false⟩⟩) := by
    simp [readToNextBreak, glyphReader.next, glyphReader.advance, advanceSum, fixedI,
      tabGlyphW, xGlyphW, spaceGlyphW]
  have wl : wordLoop (⟨⟨[1, 2], [1, 2], 2, 0, false⟩, 100, spaceGlyphW, 256, 0, ⟨[], 0⟩,
      ⟨[tabGlyphW, xGlyphW], [], false⟩⟩ : lineWrapper) [9, 88] =
      (⟨⟨[], [1, 2], 2, 2, false⟩, 100, spaceGlyphW, 256, 2, ⟨[tabGlyphW, xGlyphW], 20⟩,
        ⟨[], [], false⟩⟩, .wrapEnd) := by
    have nb1 : (⟨⟨[1, 2], [1, 2], 2, 0, false⟩, 100, spaceGlyphW, 256, 0, ⟨[], 0⟩,
        ⟨[tabGlyphW, xGlyphW], [], false⟩⟩ : lineWrapper).breaker.nextWordBreak =
        (some 1, (⟨[2], [1, 2], 2, 1, false⟩ : breaker)) := by decide
    unfold wordLoop
    rw [nb1]
    simp only []
    rw [r1]
    show wordLoop (⟨⟨[2], [1, 2], 2, 1, false⟩, 100, spaceGlyphW, 256, 1,
      ⟨[tabGlyphW], 10⟩, ⟨[xGlyphW], [], false⟩⟩ : lineWrapper) [9, 88] = _
    have nb2 : (⟨⟨[2], [1, 2], 2, 1, false⟩, 100, spaceGlyphW, 256, 1, ⟨[tabGlyphW], 10⟩,
        ⟨[xGlyphW], [], false⟩⟩ : lineWrapper).breaker.nextWordBreak =
        (some 2, (⟨[], [1, 2], 2, 2, false⟩ : breaker)) := by decide
    unfold wordLoop
    rw [nb2]
    simp only []
    rw [r2]
    show wordLoop (⟨⟨[], [1, 2], 2, 2, false⟩, 100, spaceGlyphW, 256, 2,
      ⟨[tabGlyphW, xGlyphW], 20⟩, ⟨[], [], false⟩⟩ : lineWrapper) [9, 88] = _
    have nb3 : (⟨⟨[], [1, 2], 2, 2, false⟩, 100, spaceGlyphW, 256, 2,
        ⟨[tabGlyphW, xGlyphW], 20⟩, ⟨[], [], false⟩⟩ : lineWrapper).breaker.nextWordBreak =
        ((none : Option Nat), (⟨[], [1, 2], 2, 2, false⟩ : breaker)) := by decide
    unfold wordLoop
    rw [nb3]
  have wnl1 : wrapNextLine
      { (⟨⟨[1, 2], [1, 2], 2, 0, false⟩, 100, spaceGlyphW, 256, 0, ⟨[], 0⟩,
          ⟨[tabGlyphW, xGlyphW], [], false⟩⟩ : lineWrapper) with
        currentLine := (⟨[], 0⟩ : line) } [9, 88] =
      (⟨[tabGlyphW, xGlyphW], 20⟩,
        ⟨⟨[], [1, 2], 2, 2, false⟩, 100, spaceGlyphW, 256, 2, ⟨[tabGlyphW, xGlyphW], 20⟩,
          ⟨[], [], false⟩⟩) := by
    rw [show ({ (⟨⟨[1, 2], [1, 2], 2, 0, false⟩, 100, spaceGlyphW, 256, 0, ⟨[], 0⟩,
        ⟨[tabGlyphW, xGlyphW], [], false⟩⟩ : lineWrapper) with
        currentLine := (⟨[], 0⟩ : line) } : lineWrapper) =
      (⟨⟨[1, 2], [1, 2], 2, 0, false⟩, 100, spaceGlyphW, 256, 0, ⟨[], 0⟩,
        ⟨[tabGlyphW, xGlyphW], [], false⟩⟩ : lineWrapper) from rfl]
    unfold wrapNextLine
    dsimp only
    rw [show handleRemaining (⟨⟨[1, 2], [1, 2], 2, 0, false⟩, 100, spaceGlyphW, 256, 0,
        ⟨[], 0⟩, ⟨[tabGlyphW, xGlyphW], [], false⟩⟩ : lineWrapper) =
      (⟨⟨[1, 2], [1, 2], 2, 0, false⟩, 100, spaceGlyphW, 256, 0, ⟨[], 0⟩,
        ⟨[tabGlyphW, xGlyphW], [], false⟩⟩ : lineWrapper) from rfl]
    rw [wl]
    simp only []
    rfl
  have wl2 : wordLoop (⟨⟨[], [1, 2], 2, 2, false⟩, 100, spaceGlyphW, 256, 2, ⟨[], 0⟩,
      ⟨[], [], false⟩⟩ : lineWrapper) [9, 88] =
      (⟨⟨[], [1, 2], 2, 2, false⟩, 100, spaceGlyphW, 256, 2, ⟨[], 0⟩,
        ⟨[], [], false⟩⟩, .wrapEnd) := by
    have nb : (⟨⟨[], [1, 2], 2, 2, false⟩, 100, spaceGlyphW, 256, 2, ⟨[], 0⟩,
        ⟨[], [], false⟩⟩ : lineWrapper).breaker.nextWordBreak =
        ((none : Option Nat), (⟨[], [1, 2], 2, 2, false⟩ : breaker)) := by decide
    unfold wordLoop
    rw [nb]
  have gl2 : graphemeLoop (⟨⟨[], [1, 2], 2, 2, false⟩, 100, spaceGlyphW, 256, 2, ⟨[], 0⟩,
      ⟨[], [], false⟩⟩ : lineWrapper) [9, 88] =
      (⟨⟨[], [], 2, 2, false⟩, 100, spaceGlyphW, 256, 2, ⟨[], 0⟩,
        ⟨[], [], false⟩⟩ : lineWrapper) := by
    have nb : (⟨⟨[], [1, 2], 2, 2, false⟩, 100, spaceGlyphW, 256, 2, ⟨[], 0⟩,
        ⟨[], [], false⟩⟩ : lineWrapper).breaker.nextGraphemeBreak =
        ((none : Option Nat), (⟨[], [], 2, 2, false⟩ : breaker)) := by decide
    unfold graphemeLoop
    rw [nb]
  have tl2 : thirdLoop (⟨⟨[], [], 2, 2, false⟩, 100, spaceGlyphW, 256, 2, ⟨[], 0⟩,
      ⟨[], [], false⟩⟩ : lineWrapper) =
      (⟨⟨[], [], 2, 2, false⟩, 100, spaceGlyphW, 256, 2, ⟨[], 0⟩,
        ⟨[], [], false⟩⟩ : lineWrapper) := by
    have hnx : (⟨⟨[], [], 2, 2, false⟩, 100, spaceGlyphW, 256, 2, ⟨[], 0⟩,
        ⟨[], [], false⟩⟩ : lineWrapper).glyphBuf.next =
        ((none : Option Glyph), (⟨[], [], false⟩ : glyphReader)) := by decide
    unfold thirdLoop
    rw [hnx]
  have wnl2 : wrapNextLine
      { (⟨⟨[], [1, 2], 2, 2, false⟩, 100, spaceGlyphW, 256, 2, ⟨[tabGlyphW, xGlyphW], 20⟩,
          ⟨[], [], false⟩⟩ : lineWrapper) with
        currentLine := (⟨[], 0⟩ : line) } [9, 88] =
      ((⟨[], 0⟩ : line), ⟨⟨[], [], 2, 2, false⟩, 100, spaceGlyphW, 256, 2, ⟨[], 0⟩,
        ⟨[], [], false⟩⟩) := by
    rw [show ({ (⟨⟨[], [1, 2], 2, 2, false⟩, 100, spaceGlyphW, 256, 2,
        ⟨[tabGlyphW, xGlyphW], 20⟩, ⟨[], [], false⟩⟩ : lineWrapper) with
        currentLine := (⟨[], 0⟩ : line) } : lineWrapper) =
      (⟨⟨[], [1, 2], 2, 2, false⟩, 100, spaceGlyphW, 256, 2, ⟨[], 0⟩,
        ⟨[], [], false⟩⟩ : lineWrapper) from rfl]
    unfold wrapNextLine
    dsimp only
    rw [show handleRemaining (⟨⟨[], [1, 2], 2, 2, false⟩, 100, spaceGlyphW, 256, 2,
        ⟨[], 0⟩, ⟨[], [], false⟩⟩ : lineWrapper) =
      (⟨⟨[], [1, 2], 2, 2, false⟩, 100, spaceGlyphW, 256, 2, ⟨[], 0⟩,
        ⟨[], [], false⟩⟩ : lineWrapper) from rfl]
    rw [wl2]
    simp only []
    rw [if_neg (show ¬((⟨⟨[], [1, 2], 2, 2, false⟩, 100, spaceGlyphW, 256, 2, ⟨[], 0⟩,
        ⟨[], [], false⟩⟩ : lineWrapper).currentLine.glyphs ≠ []) from by decide)]
    rw [gl2, tl2]
  refine ⟨?_, by decide, by decide, by decide, by decide⟩
  show wrapParagraphLoop (⟨⟨[1, 2], [1, 2], 2, 0, false⟩, 100, spaceGlyphW, 256, 0,
    ⟨[], 0⟩, ⟨[tabGlyphW, xGlyphW], [], false⟩⟩ : lineWrapper) [9, 88] =
    [⟨[tabGlyphW, xGlyphW], 20⟩]
  unfold wrapParagraphLoop
  rw [wnl1]
  simp only []
  rw [dif_neg (show ¬((⟨[tabGlyphW, xGlyphW], 20⟩ : line).glyphs = []) from by decide)]
  unfold wrapParagraphLoop
  rw [wnl2]
  simp

/-- The state the C4/C7 scenario reaches after the failed word read and
the grapheme-loop reset: the wide glyph that was buffered has been
discarded and the stream is exhausted. -/
def c4Drained : lineWrapper :=
  ⟨⟨[], [1], 1, 1, false⟩, 50, spaceGlyphW, 256, 1, ⟨[], 0⟩, ⟨[], [], false⟩⟩

/-- C4 failing input: the paragraph "a" (rune 97) shaped to a single
cluster-break glyph of one rune whose advance (6400 units = 100 pixels)
exceeds the 50-pixel line width.  The glyph rune count (1) equals the
paragraph's rune count, yet `WrapParagraph` returns no lines at all:
the word loop overflows, the grapheme fallback resets the buffer —
discarding the only glyph — and the wrap loop stops on the resulting
empty line, so the input glyph appears in no output visual line. -/
theorem c4_wrapParagraph_loses_overflow_glyph :
    WrapParagraph [wideGlyphW] [97] [1] [1] 50 256 spaceGlyphW = [] ∧
    ([wideGlyphW].map Glyph.runes).sum = ([97] : List Nat).length ∧
    ([wideGlyphW] : List Glyph).length = 1 := by
  have rg : readToNextBreak
      { c7Over with
        breaker := (⟨[], [1], 1, 1, false⟩ : breaker),
        glyphBuf := c7Over.glyphBuf.reset } 1 [97] = (true, c4Drained) := by
    rw [show ({ c7Over with
        breaker := (⟨[], [1], 1, 1, false⟩ : breaker),
        glyphBuf := c7Over.glyphBuf.reset } : lineWrapper) = c4Drained from rfl]
    unfold readToNextBreak
    rw [if_neg (show ¬(1 > c4Drained.runeOff) from by decide)]
  have gl : graphemeLoop c7Over [97] = c4Drained := by
    unfold graphemeLoop
    rw [show c7Over.breaker.nextGraphemeBreak =
      (some 1, (⟨[], [1], 1, 1, false⟩ : breaker)) from by decide]
    simp only []
    rw [rg]
  have tl : thirdLoop c4Drained = c4Drained := by
    unfold thirdLoop
    rw [show c4Drained.glyphBuf.next =
      ((none : Option Glyph), (⟨[], [], false⟩ : glyphReader)) from by decide]
  have wnl : wrapNextLine c7Start [97] = ((⟨[], 0⟩ : line), c4Drained) := by
    unfold wrapNextLine
    dsimp only
    rw [show handleRemaining c7Start = c7Start from rfl]
    rw [c7_wordLoop_eval]
    simp only []
    rw [if_neg (show ¬(c7Over.currentLine.glyphs ≠ []) from by decide)]
    rw [gl, tl]
    rfl
  refine ⟨?_, by decide, by decide⟩
  show wrapParagraphLoop c7Start [97] = []
  unfold wrapParagraphLoop
  rw [show ({ c7Start with currentLine := (⟨[], 0⟩ : line) } : lineWrapper) = c7Start
    from rfl]
  rw [wnl]
  simp

/-- C10: every visual line in the slice returned by the wrapping loop
contains at least one glyph — the loop terminates the first time a
wrapped line comes back with zero glyphs and never appends such a line —
and for an already-exhausted glyph iterator (the empty paragraph, with
no glyphs and no segmenter breaks) `WrapParagraph` returns the empty
slice, whatever the width, tab interval and space glyph. -/
theorem c10_lines_nonempty :
    (∀ (w : lineWrapper) (par : List Nat) (l : line),
      l ∈ wrapParagraphLoop w par → l.glyphs ≠ []) ∧
    (∀ (maxWidth tabStopInterval : Int) (sg : Glyph),
      WrapParagraph [] [] [] [] maxWidth tabStopInterval sg = []) := by
  constructor
  · intro w par
    induction w, par using wrapParagraphLoop.induct with
    | case1 w par l w2 hl hg =>
      intro l2 hm
      unfold wrapParagraphLoop at hm
      rw [hl] at hm
      simp only [] at hm
      rw [dif_pos hg] at hm
      simp at hm
    | case2 w par l w2 hl hg ih =>
      intro l2 hm
      unfold wrapParagraphLoop at hm
      rw [hl] at hm
      simp only [] at hm
      rw [dif_neg hg] at hm
      rcases List.mem_cons.mp hm with h | h
      · rw [h]
        exact hg
      · exact ih l2 h
  · intro maxW tabI sg
    have wl : wordLoop (⟨⟨[], [], 0, 0, false⟩, maxW, sg, tabI, 0, ⟨[], 0⟩,
        ⟨[], [], false⟩⟩ : lineWrapper) [] =
        (⟨⟨[], [], 0, 0, false⟩, maxW, sg, tabI, 0, ⟨[], 0⟩, ⟨[], [], false⟩⟩,
          .wrapEnd) := by
      unfold wordLoop
      rw [show (⟨⟨[], [], 0, 0, false⟩, maxW, sg, tabI, 0, ⟨[], 0⟩,
          ⟨[], [], false⟩⟩ : lineWrapper).breaker.nextWordBreak =
        ((none : Option Nat), (⟨[], [], 0, 0, false⟩ : breaker)) from rfl]
    have gl : graphemeLoop (⟨⟨[], [], 0, 0, false⟩, maxW, sg, tabI, 0, ⟨[], 0⟩,
        ⟨[], [], false⟩⟩ : lineWrapper) [] =
        ⟨⟨[], [], 0, 0, false⟩, maxW, sg, tabI, 0, ⟨[], 0⟩, ⟨[], [], false⟩⟩ := by
      unfold graphemeLoop
      rw [show (⟨⟨[], [], 0, 0, false⟩, maxW, sg, tabI, 0, ⟨[], 0⟩,
          ⟨[], [], false⟩⟩ : lineWrapper).breaker.nextGraphemeBreak =
        ((none : Option Nat), (⟨[], [], 0, 0, false⟩ : breaker)) from rfl]
    have tl : thirdLoop (⟨⟨[], [], 0, 0, false⟩, maxW, sg, tabI, 0, ⟨[], 0⟩,
        ⟨[], [], false⟩⟩ : lineWrapper) =
        ⟨⟨[], [], 0, 0, false⟩, maxW, sg, tabI, 0, ⟨[], 0⟩, ⟨[], [], false⟩⟩ := by
      unfold thirdLoop
      rw [show (⟨⟨[], [], 0, 0, false⟩, maxW, sg, tabI, 0, ⟨[], 0⟩,
          ⟨[], [], false⟩⟩ : lineWrapper).glyphBuf.next =
        ((none : Option Glyph), (⟨[], [], false⟩ : glyphReader)) from rfl]
    have wnl : wrapNextLine (⟨⟨[], [], 0, 0, false⟩, maxW, sg, tabI, 0, ⟨[], 0⟩,
        ⟨[], [], false⟩⟩ : lineWrapper) [] =
        ((⟨[], 0⟩ : line),
          ⟨⟨[], [], 0, 0, false⟩, maxW, sg, tabI, 0, ⟨[], 0⟩, ⟨[], [], false⟩⟩) := by
      unfold wrapNextLine
      dsimp only
      rw [show handleRemaining (⟨⟨[], [], 0, 0, false⟩, maxW, sg, tabI, 0, ⟨[], 0⟩,
          ⟨[], [], false⟩⟩ : lineWrapper) =
        (⟨⟨[], [], 0, 0, false⟩, maxW, sg, tabI, 0, ⟨[], 0⟩,
          ⟨[], [], false⟩⟩ : lineWrapper) from rfl]
      rw [wl]
      simp only []
      rw [if_neg (show ¬((⟨⟨[], [], 0, 0, false⟩, maxW, sg, tabI, 0, ⟨[], 0⟩,
          ⟨[], [], false⟩⟩ : lineWrapper).currentLine.glyphs ≠ []) from by simp)]
      rw [gl, tl]
    show wrapParagraphLoop (⟨⟨[], [], 0, 0, false⟩, maxW, sg, tabI, 0, ⟨[], 0⟩,
      ⟨[], [], false⟩⟩ : lineWrapper) [] = []
    unfold wrapParagraphLoop
    rw [show ({ (⟨⟨[], [], 0, 0, false⟩, maxW, sg, tabI, 0, ⟨[], 0⟩,
        ⟨[], [], false⟩⟩ : lineWrapper) with currentLine := (⟨[], 0⟩ : line) } :
      lineWrapper) =
      (⟨⟨[], [], 0, 0, false⟩, maxW, sg, tabI, 0, ⟨[], 0⟩,
        ⟨[], [], false⟩⟩ : lineWrapper) from rfl]
    rw [wnl]
    simp

/-- Witness for C10: a one-glyph paragraph wraps to exactly one visual
line, which the claim theorem shows nonempty; the empty paragraph wraps
to no lines. -/
theorem c10_lines_nonempty_witness :
    ((⟨[xGlyphW], 10⟩ : line) ∈ wrapParagraphLoop
      (⟨⟨[1], [1], 1, 0, false⟩, 100, spaceGlyphW, 256, 0, ⟨[], 0⟩,
        ⟨[xGlyphW], [], false⟩⟩ : lineWrapper) [97] ∧
      (⟨[xGlyphW], 10⟩ : line).glyphs ≠ []) ∧
    WrapParagraph [] [] [] [] 64 256 spaceGlyphW = [] := by
  have r1 : readToNextBreak
      { (⟨⟨[1], [1], 1, 0, false⟩, 100, spaceGlyphW, 256, 0, ⟨[], 0⟩,
          ⟨[xGlyphW], [], false⟩⟩ : lineWrapper) with
        breaker := (⟨[], [1], 1, 1, false⟩ : breaker) } 1 [97] =
      (true, ⟨⟨[], [1], 1, 1, false⟩, 100, spaceGlyphW, 256, 1, ⟨[], 0⟩,
        ⟨[], [xGlyphW], false⟩⟩) := by
    simp [readToNextBreak, glyphReader.next, glyphReader.advance, advanceSum, fixedI,
      xGlyphW, spaceGlyphW]
  have wl : wordLoop (⟨⟨[1], [1], 1, 0, false⟩, 100, spaceGlyphW, 256, 0, ⟨[], 0⟩,
      ⟨[xGlyphW], [], false⟩⟩ : lineWrapper) [97] =
      (⟨⟨[], [1], 1, 1, false⟩, 100, spaceGlyphW, 256, 1, ⟨[xGlyphW], 10⟩,
        ⟨[], [], false⟩⟩, .wrapEnd) := by
    have nb1 : (⟨⟨[1], [1], 1, 0, false⟩, 100, spaceGlyphW, 256, 0, ⟨[], 0⟩,
        ⟨[xGlyphW], [], false⟩⟩ : lineWrapper).breaker.nextWordBreak =
        (some 1, (⟨[], [1], 1, 1, false⟩ : breaker)) := by decide
    unfold wordLoop
    rw [nb1]
    simp only []
    rw [r1]
    show wordLoop (⟨⟨[], [1], 1, 1, false⟩, 100, spaceGlyphW, 256, 1, ⟨[xGlyphW], 10⟩,
      ⟨[], [], false⟩⟩ : lineWrapper) [97] = _
    have nb2 : (⟨⟨[], [1], 1, 1, false⟩, 100, spaceGlyphW, 256, 1, ⟨[xGlyphW], 10⟩,
        ⟨[], [], false⟩⟩ : lineWrapper).breaker.nextWordBreak =
        ((none : Option Nat), (⟨[], [1], 1, 1, false⟩ : breaker)) := by decide
    unfold wordLoop
    rw [nb2]
  have wnl1 : wrapNextLine
      { (⟨⟨[1], [1], 1, 0, false⟩, 100, spaceGlyphW, 256, 0, ⟨[], 0⟩,
          ⟨[xGlyphW], [], false⟩⟩ : lineWrapper) with
        currentLine := (⟨[], 0⟩ : line) } [97] =
      ((⟨[xGlyphW], 10⟩ : line),
        ⟨⟨[], [1], 1, 1, false⟩, 100, spaceGlyphW, 256, 1, ⟨[xGlyphW], 10⟩,
          ⟨[], [], false⟩⟩) := by
    rw [show ({ (⟨⟨[1], [1], 1, 0, false⟩, 100, spaceGlyphW, 256, 0, ⟨[], 0⟩,
        ⟨[xGlyphW], [], false⟩⟩ : lineWrapper) with
        currentLine := (⟨[], 0⟩ : line) } : lineWrapper) =
      (⟨⟨[1], [1], 1, 0, false⟩, 100, spaceGlyphW, 256, 0, ⟨[], 0⟩,
        ⟨[xGlyphW], [], false⟩⟩ : lineWrapper) from rfl]
    unfold wrapNextLine
    dsimp only
    rw [show handleRemaining (⟨⟨[1], [1], 1, 0, false⟩, 100, spaceGlyphW, 256, 0,
        ⟨[], 0⟩, ⟨[xGlyphW], [], false⟩⟩ : lineWrapper) =
      (⟨⟨[1], [1], 1, 0, false⟩, 100, spaceGlyphW, 256, 0, ⟨[], 0⟩,
        ⟨[xGlyphW], [], false⟩⟩ : lineWrapper) from rfl]
    rw [wl]
    simp only []
    rfl
  have wl2 : wordLoop (⟨⟨[], [1], 1, 1, false⟩, 100, spaceGlyphW, 256, 1, ⟨[], 0⟩,
      ⟨[], [], false⟩⟩ : lineWrapper) [97] =
      (⟨⟨[], [1], 1, 1, false⟩, 100, spaceGlyphW, 256, 1, ⟨[], 0⟩,
        ⟨[], [], false⟩⟩, .wrapEnd) := by
    have nb : (⟨⟨[], [1], 1, 1, false⟩, 100, spaceGlyphW, 256, 1, ⟨[], 0⟩,
        ⟨[], [], false⟩⟩ : lineWrapper).breaker.nextWordBreak =
        ((none : Option Nat), (⟨[], [1], 1, 1, false⟩ : breaker)) := by decide
    unfold wordLoop
    rw [nb]
  have gl2 : graphemeLoop (⟨⟨[], [1], 1, 1, false⟩, 100, spaceGlyphW, 256, 1, ⟨[], 0⟩,
      ⟨[], [], false⟩⟩ : lineWrapper) [97] =
      (⟨⟨[], [], 1, 1, false⟩, 100, spaceGlyphW, 256, 1, ⟨[], 0⟩,
        ⟨[], [], false⟩⟩ : lineWrapper) := by
    have nb : (⟨⟨[], [1], 1, 1, false⟩, 100, spaceGlyphW, 256, 1, ⟨[], 0⟩,
        ⟨[], [], false⟩⟩ : lineWrapper).breaker.nextGraphemeBreak =
        ((none : Option Nat), (⟨[], [], 1, 1, false⟩ : breaker)) := by decide
    unfold graphemeLoop
    rw [nb]
  have tl2 : thirdLoop (⟨⟨[], [], 1, 1, false⟩, 100, spaceGlyphW, 256, 1, ⟨[], 0⟩,
      ⟨[], [], false⟩⟩ : lineWrapper) =
      (⟨⟨[], [], 1, 1, false⟩, 100, spaceGlyphW, 256, 1, ⟨[], 0⟩,
        ⟨[], [], false⟩⟩ : lineWrapper) := by
    have hnx : (⟨⟨[], [], 1, 1, false⟩, 100, spaceGlyphW, 256, 1, ⟨[], 0⟩,
        ⟨[], [], false⟩⟩ : lineWrapper).glyphBuf.next =
        ((none : Option Glyph), (⟨[], [], false⟩ : glyphReader)) := by decide
    unfold thirdLoop
    rw [hnx]
  have wnl2 : wrapNextLine
      { (⟨⟨[], [1], 1, 1, false⟩, 100, spaceGlyphW, 256, 1, ⟨[xGlyphW], 10⟩,
          ⟨[], [], false⟩⟩ : lineWrapper) with
        currentLine := (⟨[], 0⟩ : line) } [97] =
      ((⟨[], 0⟩ : line), ⟨⟨[], [], 1, 1, false⟩, 100, spaceGlyphW, 256, 1, ⟨[], 0⟩,
        ⟨[], [], false⟩⟩) := by
    rw [show ({ (⟨⟨[], [1], 1, 1, false⟩, 100, spaceGlyphW, 256, 1, ⟨[xGlyphW], 10⟩,
        ⟨[], [], false⟩⟩ : lineWrapper) with
        currentLine := (⟨[], 0⟩ : line) } : lineWrapper) =
      (⟨⟨[], [1], 1, 1, false⟩, 100, spaceGlyphW, 256, 1, ⟨[], 0⟩,
        ⟨[], [], false⟩⟩ : lineWrapper) from rfl]
    unfold wrapNextLine
    dsimp only
    rw [show handleRemaining (⟨⟨[], [1], 1, 1, false⟩, 100, spaceGlyphW, 256, 1,
        ⟨[], 0⟩, ⟨[], [], false⟩⟩ : lineWrapper) =
      (⟨⟨[], [1], 1, 1, false⟩, 100, spaceGlyphW, 256, 1, ⟨[], 0⟩,
        ⟨[], [], false⟩⟩ : lineWrapper) from rfl]
    rw [wl2]
    simp only []
    rw [if_neg (show ¬((⟨⟨[], [1], 1, 1, false⟩, 100, spaceGlyphW, 256, 1, ⟨[], 0⟩,
        ⟨[], [], false⟩⟩ : lineWrapper).currentLine.glyphs ≠ []) from by decide)]
    rw [gl2, tl2]
  have hev : wrapParagraphLoop (⟨⟨[1], [1], 1, 0, false⟩, 100, spaceGlyphW, 256, 0,
      ⟨[], 0⟩, ⟨[xGlyphW], [], false⟩⟩ : lineWrapper) [97] =
      [⟨[xGlyphW], 10⟩] := by
    unfold wrapParagraphLoop
    rw [wnl1]
    simp only []
    rw [dif_neg (show ¬((⟨[xGlyphW], 10⟩ : line).glyphs = []) from by decide)]
    unfold wrapParagraphLoop
    rw [wnl2]
    simp
  have hmem : (⟨[xGlyphW], 10⟩ : line) ∈ wrapParagraphLoop
      (⟨⟨[1], [1], 1, 0, false⟩, 100, spaceGlyphW, 256, 0, ⟨[], 0⟩,
        ⟨[xGlyphW], [], false⟩⟩ : lineWrapper) [97] := by
    rw [hev]
    exact List.mem_singleton.mpr rfl
  exact ⟨⟨hmem, c10_lines_nonempty.1 _ _ _ hmem⟩,
    c10_lines_nonempty.2 64 256 spaceGlyphW⟩
